import Mathlib

/-!
Verification of the gruut text-normalization pipeline
(`src/gruut/text_processor.py`) against its natural-language specification.

Strings are modelled as `List Char`.  Python's `re` regexes never appear as
such: every pattern the settings compile is an alternation of escaped
literals (`__post_init__`), so each compiled pattern is embedded as the list
of its literals together with a direct implementation of the matching that
Python's engine performs on such a pattern (leftmost match, alternatives
tried left to right).  External libraries (babel's `parse_decimal`,
`dateparser.parse`, `num2words`) are out of scope per the specification and
are passed in as function parameters of the settings record.
-/

namespace Gruut

/-- The string type used throughout: a Python `str` as a list of characters. -/
abbrev Str := List Char

/-- Characters matched by Python's `\s` character class and stripped by
`str.strip()`.  (The ASCII whitespace characters; the additional Unicode
whitespace code points behave identically for every claim below and are
omitted.) -/
def isWs (c : Char) : Bool :=
  c = ' ' || c = '\t' || c = '\n' || c = '\r' || c = '\x0b' || c = '\x0c'

/-- Python `str.lstrip()`. -/
def pyLStrip (s : Str) : Str := s.dropWhile isWs

/-- Python `str.rstrip()` (drop trailing whitespace). -/
def pyRStrip (s : Str) : Str := (s.reverse.dropWhile isWs).reverse

/-- Python `str.strip()`. -/
def pyStrip (s : Str) : Str := pyRStrip (pyLStrip s)

/-- `gruut.utils.get_whitespace` (the default `settings.get_whitespace`):
returns the leading and trailing whitespace of a string. -/
def get_whitespace (s : Str) : Str × Str :=
  (s.takeWhile isWs, (pyLStrip s).reverse.takeWhile isWs |>.reverse)

/-- `True` iff the string has at least one non-whitespace character
(`str.strip()` nonempty, Python truthiness of the stripped text). -/
def hasContent (s : Str) : Bool := s.any (fun c => !(isWs c))

/-- `gruut.utils.has_digit` (default `is_maybe_number` / `is_maybe_currency`
/ `is_maybe_date`): true if any character is a digit. -/
def has_digit (s : Str) : Bool := s.any (fun c => c.isDigit)

/-- One group of `grouper(split_pattern.split(text), 2)` for the default
split pattern `(\s+)`: a maximal non-whitespace part paired with the
whitespace separator that follows it (empty separator for the final part,
mirroring the `None` fill value). -/
structure WsGroup where
  part : Str
  sep  : Str
deriving Repr, DecidableEq

theorem length_dropWhile_le (p : Char → Bool) (l : Str) :
    (l.dropWhile p).length ≤ l.length := by
  induction l with
  | nil => simp [List.dropWhile]
  | cons c t ih =>
    by_cases h : p c
    · simp [List.dropWhile, h]
      omega
    · simp [List.dropWhile, h]

/-- Key step bound for the `wsGroups` recursion: dropping the first
non-whitespace run and then the following whitespace run strictly shortens a
nonempty list. -/
theorem wsGroups_step_lt (c : Char) (t : Str) :
    (((c :: t).dropWhile (fun c => !(isWs c))).dropWhile isWs).length <
      (c :: t).length := by
  by_cases hc : isWs c
  · have hdw : (c :: t).dropWhile (fun c => !(isWs c)) = c :: t := by
      simp [List.dropWhile, hc]
    rw [hdw]
    have hdw2 : (c :: t).dropWhile isWs = t.dropWhile isWs := by
      simp [List.dropWhile, hc]
    rw [hdw2]
    have := Gruut.length_dropWhile_le isWs t
    simp only [List.length_cons]
    omega
  · have hdw : (c :: t).dropWhile (fun c => !(isWs c)) =
        t.dropWhile (fun c => !(isWs c)) := by
      simp [List.dropWhile, hc]
    rw [hdw]
    have h1 := Gruut.length_dropWhile_le isWs (t.dropWhile (fun c => !(isWs c)))
    have h2 := Gruut.length_dropWhile_le (fun c => !(isWs c)) t
    simp only [List.length_cons]
    omega

/-- `re.split("(\s+)", text)` paired up by `grouper(…, 2)`: alternating
(non-whitespace part, whitespace separator) groups.  The first group's part
is empty exactly when the text starts with whitespace. -/
def wsGroups : Str → List WsGroup
  | [] => []
  | c :: t =>
    ⟨(c :: t).takeWhile (fun c => !(isWs c)),
     ((c :: t).dropWhile (fun c => !(isWs c))).takeWhile isWs⟩ ::
      wsGroups (((c :: t).dropWhile (fun c => !(isWs c))).dropWhile isWs)
termination_by s => s.length
decreasing_by
  exact wsGroups_step_lt c t

/-- Concatenating every group's part and separator reconstructs the text. -/
theorem wsGroups_concat (s : Str) :
    ((wsGroups s).map (fun g => g.part ++ g.sep)).flatten = s := by
  induction s using wsGroups.induct with
  | case1 => simp [wsGroups]
  | case2 c t ih =>
    rw [wsGroups]
    simp only [List.map_cons, List.flatten_cons, ih]
    rw [List.append_assoc, List.takeWhile_append_dropWhile,
      List.takeWhile_append_dropWhile]

/-- Shorthand for embedding a Lean string literal as a Python string. -/
def S (s : String) : Str := s.data

/-- The result of `dateparser.parse` as consumed by the pipeline (only the
`day`, `month` and `year` components are ever read). -/
structure DateVal where
  year  : Nat
  month : Nat
  day   : Nat
deriving Repr, DecidableEq

/-- `gruut.const.WordNode`: the mutable per-word state of the pipeline.
`text_with_ws` is the text plus surrounding whitespace; `interpret_as` and
`format` come from `<say-as>` scope or the transform passes. -/
structure WordData where
  text : Str := []
  textWithWs : Str := []
  interpretAs : Str := []
  format : Str := []
  role : Str := []
  number : Option ℚ := none
  date : Option DateVal := none
  currencySymbol : Option Str := none
  currencyName : Option Str := none
  phonemes : Option (List Str) := none
  pos : Option Str := none
  implicit : Bool := false
  lang : Str := []
deriving Repr, DecidableEq

/-- `TextProcessorSettings`, restricted to one language (the claims below
never mix languages).  Regex-valued fields are kept as the literal sets they
are compiled from, in Python set/dict iteration order; the external parsing
and verbalization collaborators (`babel.numbers.parse_decimal`,
`dateparser.parse`, `num2words`) are function fields. -/
structure Settings where
  keepWhitespace : Bool := true
  joinStr : Str := [' ']
  beginPunctuations : List Str := []
  endPunctuations : List Str := []
  majorBreaks : List Str := []
  minorBreaks : List Str := []
  wordBreaks : List Str := []
  /-- abbreviation (raw-string literal pattern, template) pairs, insertion
  order of the dict -/
  abbreviations : List (Str × Str) := []
  replacements : List (Str × Str) := []
  spellOutWords : List (Str × Str) := []
  defaultCurrency : Str := S "USD"
  /-- symbol → currency-name map, iteration order -/
  currencies : List (Str × Str) := []
  isMaybeNumber : Str → Bool := has_digit
  isMaybeCurrency : Str → Bool := has_digit
  isMaybeDate : Str → Bool := has_digit
  /-- `babel.numbers.parse_decimal(text, locale=babel_locale)`, `none` for
  `ValueError` -/
  parseDecimal : Str → Option ℚ := fun _ => none
  /-- `dateparser.parse` with `STRICT_PARSING: True` -/
  parseDateStrict : Str → Option DateVal := fun _ => none
  /-- `dateparser.parse` with `STRICT_PARSING: False` -/
  parseDateLoose : Str → Option DateVal := fun _ => none
  /-- `default_date_format` (`InterpretAsFormat.DATE_MDY_ORDINAL`) -/
  defaultDateFormat : Str := S "moy"
  /-- `num2words(value, lang=…, to=mode)` -/
  num2words : Str → ℚ → Str := fun _ _ => []
  /-- `babel.dates.format_date(date, "MMMM", locale=…)` -/
  formatMonth : DateVal → Str := fun _ => []
  isInitialism : Option (Str → Bool) := none
  splitInitialismFn : Option (Str → List Str) := none
  isNonWord : Option (Str → Bool) := none
  lookupPhonemes : Option (Str → Str → Option (List Str)) := none
  guessPhonemes : Option (Str → Str → Option (List Str)) := none

/-- `__post_init__`: `begin_punctuations_pattern` is compiled from the set
only when the set is nonempty (`if … and self.begin_punctuations`); the
compiled alternation `^(l1|l2|…)` carries the literals in set-iteration
order — the source applies no sorting. -/
def Settings.beginPunctuationsPattern (s : Settings) : Option (List Str) :=
  if s.beginPunctuations = [] then none else some s.beginPunctuations

/-- `__post_init__`: `(l1|l2|…)$` from `end_punctuations`, set-iteration
order, compiled only when the set is nonempty. -/
def Settings.endPunctuationsPattern (s : Settings) : Option (List Str) :=
  if s.endPunctuations = [] then none else some s.endPunctuations

/-- `__post_init__`: `((?:l1|l2|…)(?:\s+|$))` from `major_breaks`. -/
def Settings.majorBreaksPattern (s : Settings) : Option (List Str) :=
  if s.majorBreaks = [] then none else some s.majorBreaks

/-- `__post_init__`: `((?:l1|l2|…)\s*)` from `minor_breaks`. -/
def Settings.minorBreaksPattern (s : Settings) : Option (List Str) :=
  if s.minorBreaks = [] then none else some s.minorBreaks

/-- `__post_init__`: `(?:l1|l2|…)` from `word_breaks`. -/
def Settings.wordBreaksPattern (s : Settings) : Option (List Str) :=
  if s.wordBreaks = [] then none else some s.wordBreaks

/-- Stable insertion into a length-descending list: a new element passes
over strictly longer *and equal-length* elements, preserving the relative
order of equals exactly like Python's stable `sorted`. -/
def insertByLenDesc (x : Str) : List Str → List Str
  | [] => [x]
  | y :: ys =>
    if y.length < x.length then x :: y :: ys else y :: insertByLenDesc x ys

/-- Stable sort by decreasing length
(`sorted(…, key=operator.length_hint, reverse=True)`). -/
def sortByLenDesc (l : List Str) : List Str :=
  l.foldl (fun acc x => insertByLenDesc x acc) []

/-- `__post_init__`: `currency_symbols` is the list of currency symbols
sorted by decreasing length (Python's sort is stable). -/
def Settings.currencySymbols (s : Settings) : List Str :=
  sortByLenDesc (s.currencies.map Prod.fst)

/-- `sentence.text` normalization (`gruut.utils.normalize_whitespace`):
strip and collapse each internal whitespace run to a single space. -/
def normalize_whitespace (s : Str) : Str :=
  ((wsGroups s).filter (fun g => g.part ≠ [])).map (fun g => g.part)
    |>.intersperse [' '] |>.flatten

/-!  ## `TextProcessor._pipeline_tokenize`  -/

/-- The list of `text_with_ws` strings of the `WordNode`s created by
`_pipeline_tokenize` for one text chunk: split on `(\s+)`, drop groups with
an empty part (`if g[0]`), re-attach the leading whitespace to group 0 and
append each group's separator (when `keep_whitespace`). -/
def tokenizeTexts (keepWhitespace : Bool) (text : Str) : List Str :=
  match (wsGroups text).filter (fun g => g.part ≠ []) with
  | [] => []
  | g0 :: rest =>
    if keepWhitespace then
      ((get_whitespace text).1 ++ g0.part ++ g0.sep) ::
        rest.map (fun g => g.part ++ g.sep)
    else g0.part :: rest.map (fun g => g.part)

/-- `_pipeline_tokenize`: the `WordNode`s attached under the current
sentence for one text chunk. -/
def pipelineTokenize (st : Settings) (text : Str) : List WordData :=
  (tokenizeTexts st.keepWhitespace text).map (fun t =>
    { text := pyStrip t, textWithWs := t, implicit := true })

theorem head_dropWhile_not (p : Char → Bool) (l : Str) :
    ∀ c, (l.dropWhile p).head? = some c → p c = false := by
  induction l with
  | nil =>
    intro c h
    simp [List.dropWhile] at h
  | cons a t ih =>
    intro c h
    rw [List.dropWhile_cons] at h
    by_cases hp : p a = true
    · rw [hp] at h
      simp only [if_true] at h
      exact ih c h
    · have hpf : p a = false := by simpa using hp
      rw [hpf] at h
      simp at h
      rw [← h]
      exact hpf

theorem wsGroups_parts_ne_nil (s : Str)
    (hhead : ∀ c, s.head? = some c → isWs c = false) :
    ∀ g ∈ wsGroups s, g.part ≠ [] := by
  induction s using wsGroups.induct with
  | case1 =>
    intro g hg
    simp [wsGroups] at hg
  | case2 c t ih =>
    have hc : isWs c = false := hhead c rfl
    intro g hg
    rw [wsGroups] at hg
    rcases List.mem_cons.mp hg with h | h
    · subst h
      simp [List.takeWhile_cons, hc]
    · exact ih (fun c' hc' => head_dropWhile_not isWs _ c' hc') g h

theorem wsGroups_cons_ws (c : Char) (t : Str) (hc : isWs c = true) :
    wsGroups (c :: t) =
      ⟨[], (c :: t).takeWhile isWs⟩ :: wsGroups ((c :: t).dropWhile isWs) := by
  have hdw : (c :: t).dropWhile (fun c => !(isWs c)) = c :: t := by
    simp [List.dropWhile_cons, hc]
  have hpart : (c :: t).takeWhile (fun c => !(isWs c)) = [] := by
    simp [List.takeWhile_cons, hc]
  rw [wsGroups, hdw, hpart]

/-- A text with no non-whitespace character produces no words. -/
theorem tokenizeTexts_all_ws (keep : Bool) (s : Str)
    (h : hasContent s = false) : tokenizeTexts keep s = [] := by
  have hall : ∀ c ∈ s, isWs c = true := by simpa [hasContent] using h
  have hfil : (wsGroups s).filter (fun g => g.part ≠ []) = [] := by
    cases s with
    | nil => simp [wsGroups]
    | cons c t =>
      have hc : isWs c = true := hall c (List.mem_cons_self _ _)
      rw [wsGroups_cons_ws c t hc]
      have hdrop : (c :: t).dropWhile isWs = [] := by
        rw [List.dropWhile_eq_nil_iff]
        intro a ha
        exact hall a ha
      rw [hdrop]
      simp [wsGroups]
  unfold tokenizeTexts
  rw [hfil]

/-- With `keep_whitespace=True`, concatenating the `text_with_ws` of the
words `_pipeline_tokenize` creates reconstructs the text chunk exactly,
whenever the chunk has any content. -/
theorem tokenizeTexts_flatten (s : Str) (h : hasContent s = true) :
    (tokenizeTexts true s).flatten = s := by
  -- the non-whitespace tail and its leading whitespace
  have hr : s.dropWhile isWs ≠ [] := by
    intro hnil
    rw [List.dropWhile_eq_nil_iff] at hnil
    obtain ⟨c, hc, hcw⟩ : ∃ x ∈ s, isWs x = false := by
      simpa [hasContent] using h
    rw [hnil c hc] at hcw
    exact Bool.noConfusion hcw
  have hrhead : ∀ c, (s.dropWhile isWs).head? = some c → isWs c = false :=
    fun c hc => head_dropWhile_not isWs s c hc
  have hparts : ∀ g ∈ wsGroups (s.dropWhile isWs), g.part ≠ [] :=
    wsGroups_parts_ne_nil _ hrhead
  have hfil : (wsGroups s).filter (fun g => g.part ≠ []) =
      wsGroups (s.dropWhile isWs) := by
    cases s with
    | nil => simp at hr
    | cons c t =>
      by_cases hc : isWs c
      · rw [wsGroups_cons_ws c t hc, List.filter_cons]
        have hcond :
            (decide ((⟨[], (c :: t).takeWhile isWs⟩ : WsGroup).part ≠ [])) =
              false := by simp
        rw [hcond]
        simp only [Bool.false_eq_true, if_false]
        exact List.filter_eq_self.mpr (fun a ha => by simpa using hparts a ha)
      · have hl : (c :: t).dropWhile isWs = c :: t := by
          simp [List.dropWhile_cons, hc]
        rw [hl]
        refine List.filter_eq_self.mpr (fun a ha => ?_)
        have hhead : ∀ c', (c :: t).head? = some c' → isWs c' = false := by
          intro c' hc'
          simp only [List.head?_cons, Option.some.injEq] at hc'
          subst hc'
          exact Bool.eq_false_iff.mpr hc
        simpa using wsGroups_parts_ne_nil _ hhead a ha
  have hgw1 : (get_whitespace s).1 = s.takeWhile isWs := rfl
  obtain ⟨g0, rest, hcons⟩ :
      ∃ g0 rest, wsGroups (s.dropWhile isWs) = g0 :: rest := by
    cases hd : s.dropWhile isWs with
    | nil => exact absurd hd hr
    | cons a u =>
      rw [wsGroups]
      exact ⟨_, _, rfl⟩
  unfold tokenizeTexts
  rw [hfil, hcons]
  simp only [if_true, List.flatten_cons, hgw1]
  have hconcat := wsGroups_concat (s.dropWhile isWs)
  rw [hcons] at hconcat
  simp only [List.map_cons, List.flatten_cons] at hconcat
  calc s.takeWhile isWs ++ g0.part ++ g0.sep ++
        ((rest.map (fun g => g.part ++ g.sep)).flatten)
      = s.takeWhile isWs ++ (g0.part ++ g0.sep ++
        ((rest.map (fun g => g.part ++ g.sep)).flatten)) := by
        simp [List.append_assoc]
    _ = s.takeWhile isWs ++ s.dropWhile isWs := by rw [hconcat]
    _ = s := by rw [List.takeWhile_append_dropWhile]

/-!  ## Leaf nodes and the literal-alternation pattern semantics  -/

/-- `BreakType`. -/
inductive BreakKind where
  | major
  | minor
deriving Repr, DecidableEq

/-- The leaf node variants produced by the pipeline
(`WordNode`, `BreakWordNode`, `PunctuationWordNode`, `BreakNode`,
`IgnoreNode`). -/
inductive Leaf where
  | word (w : WordData)
  | breakWord (breakType : BreakKind) (text textWithWs : Str)
      (implicit : Bool) (lang : Str)
  | punctWord (text textWithWs : Str) (implicit : Bool) (lang : Str)
  | breakNode (time : Str)
  | ignore
deriving Repr, DecidableEq

/-- One iteration of the begin-punctuation loop:
`filter(None, begin_punctuations_pattern.split(word_text, maxsplit=1))`
produces two parts (punctuation, rest) exactly when some literal of the
anchored alternation `^(l1|l2|…)` — alternatives tried in list order — is a
prefix of the text, the matched literal is nonempty, and a nonempty rest
remains. -/
def beginSplitStep (lits : List Str) (t : Str) : Option (Str × Str) :=
  match lits.find? (fun l => l.isPrefixOf t) with
  | some l =>
    if l = [] ∨ t.drop l.length = [] then none else some (l, t.drop l.length)
  | none => none

theorem beginSplitStep_lt {lits : List Str} {t l rest : Str}
    (h : beginSplitStep lits t = some (l, rest)) : rest.length < t.length := by
  unfold beginSplitStep at h
  cases hf : lits.find? (fun l => l.isPrefixOf t) with
  | none =>
    simp only [hf] at h
    exact Option.noConfusion h
  | some l' =>
    simp only [hf] at h
    by_cases hc : l' = [] ∨ t.drop l'.length = []
    · rw [if_pos hc] at h
      exact absurd h (by simp)
    · rw [if_neg hc] at h
      push_neg at hc
      obtain ⟨hl, hrest⟩ := hc
      rw [Option.some.injEq, Prod.mk.injEq] at h
      obtain ⟨-, h3⟩ := h
      subst h3
      have hl1 : 1 ≤ l'.length := by
        cases l' with
        | nil => exact absurd rfl hl
        | cons a u => simp
      have hd : (t.drop l'.length).length ≠ 0 := by
        intro h0
        exact hrest (List.eq_nil_of_length_eq_zero h0)
      simp only [List.length_drop] at hd ⊢
      omega

/-- The `while word_text and (len(parts) == 2)` loop of
`_split_punctuations` for the word's head: returns the peeled punctuation
strings in peel order and the residual word text. -/
def peelBegin (lits : List Str) (t : Str) : List Str × Str :=
  match h : beginSplitStep lits t with
  | none => ([], t)
  | some (l, rest) =>
    let (ps, r) := peelBegin lits rest
    (l :: ps, r)
termination_by t.length
decreasing_by
  exact beginSplitStep_lt h

/-- One iteration of the end-punctuation loop:
`filter(None, end_punctuations_pattern.split(word_text, maxsplit=1))` for
the suffix-anchored alternation `(l1|l2|…)$`.  The regex engine takes the
leftmost match, which for a suffix-anchored literal alternation is the
longest configured literal that is a suffix; two parts survive the filter
exactly when that literal and the remaining prefix are both nonempty. -/
def endSplitStep (lits : List Str) (t : Str) : Option (Str × Str) :=
  match (lits.filter
      (fun l => !l.isEmpty && decide (l.length < t.length) && l.isSuffixOf t)).argmax
      (fun l => l.length) with
  | some l => some (t.take (t.length - l.length), l)
  | none => none

theorem endSplitStep_lt {lits : List Str} {t pre l : Str}
    (h : endSplitStep lits t = some (pre, l)) : pre.length < t.length := by
  unfold endSplitStep at h
  cases ha : (lits.filter
      (fun l => !l.isEmpty && decide (l.length < t.length) && l.isSuffixOf t)).argmax
      (fun l => l.length) with
  | none =>
    simp only [ha] at h
    exact Option.noConfusion h
  | some l' =>
    simp only [ha, Option.some.injEq, Prod.mk.injEq] at h
    obtain ⟨h2, -⟩ := h
    have hmem : l' ∈ lits.filter
        (fun l => !l.isEmpty && decide (l.length < t.length) && l.isSuffixOf t) :=
      List.argmax_mem ha
    have hfil := (List.mem_filter.mp hmem).2
    simp only [Bool.and_eq_true, decide_eq_true_eq] at hfil
    obtain ⟨⟨hne, hlt⟩, -⟩ := hfil
    have hl1 : 1 ≤ l'.length := by
      cases l' with
      | nil => simp at hne
      | cons a u => simp
    rw [← h2]
    simp only [List.length_take]
    omega

/-- The end-punctuation peel loop: returns the residual word text and the
peeled end punctuations in peel order (outermost first). -/
def peelEnd (lits : List Str) (t : Str) : Str × List Str :=
  match h : endSplitStep lits t with
  | none => (t, [])
  | some (pre, l) =>
    let (r, ps) := peelEnd lits pre
    (r, l :: ps)
termination_by t.length
decreasing_by
  exact endSplitStep_lt h

/-- Leftmost match of the break alternations
`((?:l1|l2|…)\s*)` / `((?:l1|l2|…)(?:\s+|$))` in a text: scan positions
left to right; at each position try the literals in list order, accept when
`afterOk` holds of what follows the literal; the captured separator is the
literal plus the greedy whitespace run after it.  Returns
`(prefix, separator, remainder)` — `re.split` parts 0, 1 and 2. -/
def scanSplit (lits : List Str) (afterOk : Str → Bool) :
    Str → Option (Str × Str × Str)
  | t@(c :: rest) =>
    match lits.find? (fun l => l.isPrefixOf t && afterOk (t.drop l.length)) with
    | some l =>
      let after := t.drop l.length
      some ([], l ++ after.takeWhile isWs, after.dropWhile isWs)
    | none =>
      match scanSplit lits afterOk rest with
      | some (pre, g, r) => some (c :: pre, g, r)
      | none => none
  | [] =>
    match lits.find? (fun l => l.isPrefixOf [] && afterOk []) with
    | some l => some ([], l, [])
    | none => none

/-- `pattern.subn(template, text)` for a literal nonempty pattern:
replace each non-overlapping occurrence left to right, counting
substitutions.  (An empty literal pattern is returned unchanged; no claim
involves one.) -/
def subnLit (pat rep : Str) (t : Str) : Str × Nat :=
  if hp : pat = [] then (t, 0)
  else
    match t with
    | [] => ([], 0)
    | c :: rest =>
      if pat.isPrefixOf (c :: rest) then
        let (t', n) := subnLit pat rep ((c :: rest).drop pat.length)
        (rep ++ t', n + 1)
      else
        let (t', n) := subnLit pat rep rest
        (c :: t', n)
termination_by t.length
decreasing_by
  · simp only [List.length_drop, List.length_cons]
    have : 1 ≤ pat.length := by
      cases pat with
      | nil => exact absurd rfl hp
      | cons a u => simp
    omega
  · simp

/-- `(?:l1|l2|…)` used with `re.split` and no capture (word breaks): cut the
text at every non-overlapping leftmost occurrence of a literal (alternatives
in list order; empty literals never match, as the sets contain none). -/
def litSplitAll (lits : List Str) (t : Str) : List Str :=
  match t with
  | [] => [[]]
  | c :: rest =>
    match lits.find? (fun l => !l.isEmpty && l.isPrefixOf (c :: rest)) with
    | some l =>
      -- the matched literal is nonempty, so `(c :: rest).drop l.length`
      -- is `rest.drop (l.length - 1)`
      [] :: litSplitAll lits (rest.drop (l.length - 1))
    | none =>
      match litSplitAll lits rest with
      | p :: ps => (c :: p) :: ps
      | [] => [[c]]
termination_by t.length
decreasing_by
  · simp only [List.length_cons, List.length_drop]
    omega
  · simp

/-!  ## Split passes (`pipeline_split` visitor functions)  -/

/-- Python truthiness of an optional phoneme list
(`settings.lookup_phonemes(word.text)`: true when the lookup returned a
nonempty list).  The source calls the lookup without a role. -/
def lookupTruthy (st : Settings) (text : Str) : Bool :=
  match st.lookupPhonemes with
  | some lookup =>
    match lookup text [] with
    | some ps => !ps.isEmpty
    | none => false
  | none => false

/-- `WordRole.LETTER` (`gruut.const`). -/
def roleLetter : Str := S "gruut:letter"

/-- The whitespace redistribution used by initialism / word-break /
spell-out splits: part 0 gets the word's leading whitespace, the last index
gets the trailing whitespace, every other part gets `join_str` (only with
`keep_whitespace`). -/
def wsAdjust (keep : Bool) (joinStr firstWs lastWs : Str) (lastIdx i : Nat)
    (t : Str) : Str :=
  if keep then
    (if i = 0 then firstWs else []) ++ t ++
      (if i = lastIdx then lastWs else joinStr)
  else t

/-- The re-tokenization loop shared by `_split_replacements` and
`_split_abbreviations`: split the new text on `(\s+)`, append each
separator (when `keep_whitespace`), drop blank parts, and yield one
implicit `WordNode` per part with `normalize_whitespace` applied to its
text. -/
def retokenize (st : Settings) (lang : Str) (newText : Str) : List Leaf :=
  (((wsGroups newText).map
      (fun g => if st.keepWhitespace then g.part ++ g.sep else g.part)).filter
    hasContent).map
    (fun p => .word { text := normalize_whitespace p, textWithWs := p,
                      implicit := true, lang := lang })

/-- `_split_replacements`. -/
def splitReplacements (st : Settings) : Leaf → List Leaf
  | .word w =>
    if w.interpretAs ≠ [] then []
    else if st.replacements = [] then []
    else
      match st.replacements.foldl
          (fun acc pr =>
            match subnLit pr.1 pr.2 acc.1 with
            | (t', n) => (t', acc.2 || decide (0 < n)))
          (w.textWithWs, false) with
      | (newText, matched) =>
        if matched then retokenize st w.lang newText else []
  | _ => []

/-- `_split_punctuations`. -/
def splitPunctuations (st : Settings) : Leaf → List Leaf
  | .word w =>
    if w.interpretAs ≠ [] then []
    else if st.beginPunctuationsPattern = none ∧
        st.endPunctuationsPattern = none then []
    else
      let fl := get_whitespace w.textWithWs
      let pb := match st.beginPunctuationsPattern with
        | some lits => peelBegin lits w.text
        | none => ([], w.text)
      let pe := match st.endPunctuationsPattern with
        | some lits => peelEnd lits pb.2
        | none => (pb.2, [])
      if pb.1 = [] ∧ pe.2 = [] then []
      else
        -- begin punctuations in peel order; the first carries the
        -- leading whitespace
        (match pb.1 with
          | [] => []
          | p0 :: ps =>
            Leaf.punctWord (pyStrip (fl.1 ++ p0)) (fl.1 ++ p0) true w.lang ::
              ps.map (fun p => Leaf.punctWord (pyStrip p) p true w.lang)) ++
        -- the residue word (trailing whitespace re-attached only when no
        -- end punctuation was found), skipped if empty
        (match (if st.keepWhitespace ∧ pe.2 = [] then pe.1 ++ fl.2 else pe.1) with
          | [] => []
          | wt => [Leaf.word { text := pyStrip wt, textWithWs := wt,
                               implicit := true, lang := w.lang }]) ++
        -- end punctuations emitted in reverse peel order; the last carries
        -- the trailing whitespace
        (match pe.2.reverse with
          | [] => []
          | qs =>
            (qs.take (qs.length - 1)).map
              (fun p => Leaf.punctWord (pyStrip p) p true w.lang) ++
            (qs.drop (qs.length - 1)).map
              (fun p =>
                let pt := if st.keepWhitespace then p ++ fl.2 else p
                Leaf.punctWord (pyStrip pt) pt true w.lang))
  | _ => []

/-- `_split_major_breaks`. -/
def splitMajorBreaks (st : Settings) : Leaf → List Leaf
  | .word w =>
    if w.interpretAs ≠ [] then []
    else
      match st.majorBreaksPattern with
      | none => []
      | some lits =>
        match scanSplit lits
            (fun a => a.isEmpty || isWs (a.headD ' ')) w.textWithWs with
        | none => []
        | some (pre, g, _) =>
          if hasContent pre then
            [.word { text := pyStrip pre, textWithWs := pre,
                     implicit := true, lang := w.lang },
             .breakWord .major (pyStrip g) g true w.lang]
          else
            [.breakWord .major (pyStrip (pre ++ g)) (pre ++ g) true w.lang]
  | _ => []

/-- `_split_minor_breaks`.  Note: only `parts[0]` and `parts[1]` of the
`re.split` result are re-emitted; any remainder is dropped. -/
def splitMinorBreaks (st : Settings) : Leaf → List Leaf
  | .word w =>
    if w.interpretAs ≠ [] then []
    else
      match st.minorBreaksPattern with
      | none => []
      | some lits =>
        match scanSplit lits (fun _ => true) w.textWithWs with
        | none => []
        | some (pre, g, _) =>
          [.word { text := pyStrip pre, textWithWs := pre,
                   implicit := true, lang := w.lang },
           .breakWord .minor (pyStrip g) g true w.lang]
  | _ => []

/-!  ## Abbreviations  -/

/-- An abbreviation pattern after `__post_init__` compilation.  The claims
only involve literal-text patterns; `lit` is a raw pattern compiled as-is
(no trailing `$`, no major breaks configured — `pattern.match` is then only
anchored at the start), `litEnd` is a raw pattern that already ended in
`$`, and `litBreak` is the auto-suffixed form
`core(?P<break>b1|b2|…)?(?P<whitespace>\s*)$`. -/
inductive AbbrevPat where
  | lit (core : Str)
  | litEnd (core : Str)
  | litBreak (core : Str) (breaks : List Str)
deriving Repr, DecidableEq

/-- `__post_init__` compilation of one raw abbreviation pattern. -/
def compileAbbrev (majorBreaks : List Str) (p : Str) : AbbrevPat :=
  if p.getLast? = some '$' then .litEnd p.dropLast
  else if majorBreaks ≠ [] then .litBreak p majorBreaks
  else .lit p

/-- `pattern.match(text)` plus `match.expand(template)` for a compiled
abbreviation pattern: `none` when the pattern does not match; otherwise
the expansion (for `litBreak` the template was suffixed with
`\g<break>\g<whitespace>`, so the matched break and trailing whitespace are
re-emitted after the template). -/
def abbrevMatchExpand (pat : AbbrevPat) (tmpl : Str) (t : Str) : Option Str :=
  match pat with
  | .lit core => if core.isPrefixOf t then some tmpl else none
  | .litEnd core => if t = core then some tmpl else none
  | .litBreak core breaks =>
    if core.isPrefixOf t then
      match breaks.find? (fun b =>
          b.isPrefixOf (t.drop core.length) &&
            ((t.drop core.length).drop b.length).all isWs) with
      | some b => some (tmpl ++ t.drop core.length)
      | none =>
        if (t.drop core.length).all isWs then some (tmpl ++ t.drop core.length)
        else none
    else none

/-- `_split_abbreviations`: try the compiled patterns in insertion order
against the word's `text_with_ws`; the first match expands and the result
is re-tokenized. -/
def splitAbbreviations (st : Settings) : Leaf → List Leaf
  | .word w =>
    if w.interpretAs ≠ [] then []
    else if st.abbreviations = [] then []
    else
      match st.abbreviations.findSome?
          (fun pr => abbrevMatchExpand (compileAbbrev st.majorBreaks pr.1)
            pr.2 w.textWithWs) with
      | some newText => retokenize st w.lang newText
      | none => []
  | _ => []

/-- `_split_initialism`. -/
def splitInitialism (st : Settings) : Leaf → List Leaf
  | .word w =>
    if w.interpretAs ≠ [] then []
    else
      match st.isInitialism, st.splitInitialismFn with
      | some isInit, some splitFn =>
        if lookupTruthy st w.text then []
        else if !(isInit w.text) then []
        else
          match splitFn w.text with
          | [] => []
          | parts =>
            let fl := get_whitespace w.textWithWs
            (parts.mapIdx (fun i p =>
              if p = [] then none
              else
                let pt := wsAdjust st.keepWhitespace st.joinStr fl.1 fl.2
                  (parts.length - 1) i p
                some (Leaf.word { text := pyStrip pt, textWithWs := pt,
                                  implicit := true, lang := w.lang,
                                  role := roleLetter }))).filterMap id
      | _, _ => []
  | _ => []

/-- `_split_spell_out`: one child word per character of the word's text,
mapped through `spell_out_words`, alphabetic characters marked with the
letter role. -/
def splitSpellOut (st : Settings) : Leaf → List Leaf
  | .word w =>
    if w.interpretAs ≠ S "spell-out" then []
    else
      let fl := get_whitespace w.textWithWs
      (w.text.mapIdx (fun i c =>
        let wr : Str × Str :=
          match st.spellOutWords.lookup [c] with
          | some t => (t, [])
          | none => if c.isAlpha then ([c], roleLetter) else ([c], [])
        if wr.1 = [] then none
        else
          let pt := wsAdjust st.keepWhitespace st.joinStr fl.1 fl.2
            (w.text.length - 1) i wr.1
          some (Leaf.word { text := pyStrip pt, textWithWs := pt,
                            implicit := true, lang := w.lang,
                            role := wr.2 }))).filterMap id
  | _ => []

/-- `_break_words`. -/
def breakWords (st : Settings) : Leaf → List Leaf
  | .word w =>
    if w.interpretAs ≠ [] then []
    else if !w.implicit then []
    else
      match st.wordBreaksPattern with
      | none => []
      | some lits =>
        if lookupTruthy st w.text then []
        else
          match litSplitAll lits w.text with
          | [] => []
          | [_] => []
          | parts =>
            let fl := get_whitespace w.textWithWs
            parts.mapIdx (fun i p =>
              let pt := wsAdjust st.keepWhitespace st.joinStr fl.1 fl.2
                (parts.length - 1) i p
              Leaf.word { text := pyStrip pt, textWithWs := pt,
                          implicit := true, lang := w.lang })
  | _ => []

/-- `_split_ignore_non_words`. -/
def splitIgnoreNonWords (st : Settings) : Leaf → List Leaf
  | .word w =>
    if w.interpretAs ≠ [] then []
    else
      match st.isNonWord with
      | none => []
      | some f => if f w.text then [.ignore] else []
  | _ => []

/-!  ## Transform passes (`pipeline_transform` visitor functions)

The `is_maybe_*` predicates are modelled as plain functions; a language
configured with `None` corresponds to the constant-`true` function (the
source skips the gate in that case). -/

/-- `_transform_number`.  Note: the source attempts `parse_decimal` without
consulting `is_maybe_number`. -/
def transformNumber (st : Settings) (w : WordData) : WordData :=
  if w.interpretAs ≠ [] ∧ w.interpretAs ≠ S "number" then w
  else
    match st.parseDecimal w.text with
    | some n => { w with interpretAs := S "number", number := some n }
    | none => w

/-- `_transform_currency`. -/
def transformCurrency (st : Settings) (w : WordData) : WordData :=
  if w.interpretAs ≠ [] ∧ w.interpretAs ≠ S "currency" then w
  else if !(st.isMaybeCurrency w.text) then w
  else
    match st.currencySymbols.findSome? (fun sym =>
        if sym.isPrefixOf w.text then
          match st.parseDecimal (w.text.drop sym.length) with
          | some n => some (sym, n)
          | none => none
        else none) with
    | some (sym, n) =>
      { w with interpretAs := S "currency", currencySymbol := some sym,
               number := some n }
    | none =>
      if w.interpretAs = S "currency" ∧ st.defaultCurrency ≠ [] then
        match st.parseDecimal w.text with
        | some n =>
          { w with interpretAs := S "currency",
                   currencyName := some st.defaultCurrency, number := some n }
        | none => w
      else w

/-- `_transform_date`. -/
def transformDate (st : Settings) (w : WordData) : WordData :=
  if w.interpretAs ≠ [] ∧ w.interpretAs ≠ S "date" then w
  else if !(st.isMaybeDate w.text) then w
  else
    match st.parseDateStrict w.text with
    | some d => { w with interpretAs := S "date", date := some d }
    | none =>
      if w.interpretAs = S "date" then
        match st.parseDateLoose w.text with
        | some d => { w with date := some d }
        | none => w
      else w

/-!  ## Verbalize passes  -/

/-- `(decimal_num % 1) != 0`: the decimal has a nonzero fractional part. -/
def hasFrac (q : ℚ) : Bool := q.den ≠ 1

/-- `re.sub(r"\W", join_str, s)`: replace every non-word character by the
join string. -/
def subNonWord (join : Str) (s : Str) : Str :=
  s.flatMap (fun c => if c.isAlphanum || c = '_' then [c] else join)

/-- The group loop shared by the verbalizers: one string per nonempty part;
group 0 gets the original word's leading whitespace, the last group index
its trailing whitespace, other groups their own separator (only with
`keep_whitespace`).  Blank parts are skipped without renumbering. -/
def verbGroups (keep : Bool) (firstWs lastWs : Str) (groups : List WsGroup) :
    List Str :=
  (groups.mapIdx (fun i g =>
    if g.part = [] then none
    else some (
      if keep then
        (if i = 0 then firstWs else []) ++ g.part ++
          (if i = groups.length - 1 then lastWs else g.sep)
      else g.part))).filterMap id

/-- An implicit child `WordNode` attached by a verbalizer. -/
def mkVerbWord (lang t : Str) : WordData :=
  { text := pyStrip t, textWithWs := t, implicit := true, lang := lang }

/-- `_verbalize_number`: returns the (unchanged) word and the child words
attached under it.  `to_integral_value` for the `digits` format is modelled
with `round`. -/
def verbalizeNumber (st : Settings) (w : WordData) : WordData × List WordData :=
  if w.interpretAs ≠ S "number" then (w, [])
  else
    match w.number with
    | none => (w, [])
    | some q =>
      if !(st.isMaybeNumber w.text) then (w, [])
      else
        let mode : Str :=
          if w.format = S "ordinal" then S "ordinal"
          else if w.format = S "year" then S "year"
          else S "cardinal"
        let decimalNums : List ℚ :=
          if w.format = S "digits" then
            (if (round q : ℤ).natAbs = 0 then [(0 : ℚ)]
             else ((Nat.digits 10 (round q : ℤ).natAbs).reverse.map
               (fun d => (d : ℚ))))
          else [q]
        let fl := get_whitespace w.textWithWs
        (w, decimalNums.flatMap (fun d =>
          let numStr := pyStrip (subNonWord st.joinStr (st.num2words mode d))
          (verbGroups st.keepWhitespace fl.1 fl.2 (wsGroups numStr)).map
            (mkVerbWord w.lang)))

/-- `_verbalize_date`. -/
def verbalizeDate (st : Settings) (w : WordData) : WordData × List WordData :=
  if w.interpretAs ≠ S "date" then (w, [])
  else
    match w.date with
    | none => (w, [])
    | some date =>
      let fmt := (pyStrip
        (if w.format ≠ [] then w.format else st.defaultDateFormat)).map
        Char.toUpper
      let comp : Char → Str := fun c =>
        if c = 'M' then (if fmt.contains 'M' then st.formatMonth date else [])
        else if c = 'D' then
          (if fmt.contains 'D' then st.num2words (S "cardinal") date.day else [])
        else if c = 'O' then
          (if fmt.contains 'O' then st.num2words (S "ordinal") date.day else [])
        else if c = 'Y' then
          (if fmt.contains 'Y' then st.num2words (S "year") date.year else [])
        else []
      let dateStr := ((fmt.map comp).intersperse st.joinStr).flatten
      let fl := get_whitespace w.textWithWs
      (w, ((verbGroups st.keepWhitespace fl.1 fl.2 (wsGroups dateStr)).filter
        (fun t => !t.isEmpty)).map (mkVerbWord w.lang))

/-- Python truthiness of the optional `currency_name` field. -/
def optStrTruthy : Option Str → Bool
  | some s => !s.isEmpty
  | none => false

/-- `_verbalize_currency`.  `n2wCur` is
`num2words(float(n), to="currency", currency=name, separator="|")`; an
exception from it is caught and logged, the word keeping the
`currency_name` already assigned but receiving no children. -/
def verbalizeCurrency (st : Settings) (n2wCur : ℚ → Str → Except Str Str)
    (w : WordData) : WordData × List WordData :=
  if w.interpretAs ≠ S "currency" ∨
      (w.currencySymbol = none ∧ w.currencyName = none) ∨ w.number = none then
    (w, [])
  else
    match w.number with
    | none => (w, [])
    | some q =>
      let w1 :=
        if optStrTruthy w.currencyName then w
        else
          { w with currencyName := some (
              if st.currencies ≠ [] then
                (st.currencies.lookup (w.currencySymbol.getD [])).getD
                  st.defaultCurrency
              else st.defaultCurrency) }
      match n2wCur q (w1.currencyName.getD []) with
      | .error _ => (w1, [])
      | .ok raw =>
        let numStr0 :=
          if hasFrac q then raw.filter (fun c => c ≠ '|')
          else raw.takeWhile (fun c => c ≠ '|')
        let numStr := pyStrip (subNonWord st.joinStr numStr0)
        let fl := get_whitespace w.textWithWs
        (w1, (verbGroups st.keepWhitespace fl.1 fl.2 (wsGroups numStr)).map
          (mkVerbWord w.lang))

/-!  ## The node tree, pass drivers and the sentence breaker

The graph restricted to one paragraph: a sentence owns an ordered edge
list of subtrees whose nodes carry `Leaf` data; split passes attach
children under current leaves (`pipeline_split` snapshots the leaf set,
so children attached during a pass are not revisited within it);
transform passes mutate leaf data in place. -/

inductive PTree where
  | node (data : Leaf) (children : List PTree)
deriving Repr

mutual

/-- The leaves of a subtree in document (edge) order. -/
def PTree.leaves : PTree → List Leaf
  | .node d cs => if cs.isEmpty then [d] else PTree.leavesList cs

def PTree.leavesList : List PTree → List Leaf
  | [] => []
  | t :: ts => t.leaves ++ PTree.leavesList ts

end

mutual

/-- One `pipeline_split` pass over a subtree: each leaf for which the
visitor yields nodes gets them attached as children (becoming the new
leaves); other leaves are untouched. -/
def runSplitT (f : Leaf → List Leaf) : PTree → PTree
  | .node d cs =>
    if cs.isEmpty then
      match f d with
      | [] => .node d []
      | children => .node d (children.map (fun l => PTree.node l []))
    else .node d (runSplitTList f cs)

def runSplitTList (f : Leaf → List Leaf) : List PTree → List PTree
  | [] => []
  | t :: ts => runSplitT f t :: runSplitTList f ts

end

mutual

/-- One `pipeline_transform` pass: mutate each leaf in place. -/
def runTransformT (f : Leaf → Leaf) : PTree → PTree
  | .node d cs =>
    if cs.isEmpty then .node (f d) [] else .node d (runTransformTList f cs)

def runTransformTList (f : Leaf → Leaf) : List PTree → List PTree
  | [] => []
  | t :: ts => runTransformT f t :: runTransformTList f ts

end

mutual

/-- A verbalize pass (run through `pipeline_transform`): may both mutate the
leaf and attach child words under it. -/
def runVerbT (f : Leaf → Leaf × List Leaf) : PTree → PTree
  | .node d cs =>
    if cs.isEmpty then
      match f d with
      | (d', ls) => .node d' (ls.map (fun l => PTree.node l []))
    else .node d (runVerbTList f cs)

def runVerbTList (f : Leaf → Leaf × List Leaf) : List PTree → List PTree
  | [] => []
  | t :: ts => runVerbT f t :: runVerbTList f ts

end

/-- Lift a `WordNode`-only transform to leaves (the visitors start with
`if not isinstance(node, WordNode): return`). -/
def liftW (f : WordData → WordData) : Leaf → Leaf
  | .word w => .word (f w)
  | l => l

/-- Lift a `WordNode`-only verbalizer to leaves. -/
def liftV (f : WordData → WordData × List WordData) : Leaf → Leaf × List Leaf
  | .word w =>
    match f w with
    | (w', ws) => (.word w', ws.map .word)
  | l => (l, [])

/-- A sentence: its `implicit` flag and ordered out-edge list. -/
structure SentT where
  implicit : Bool
  edges : List PTree
deriving Repr

/-- True if the subtree contains a major `BreakWordNode` leaf. -/
def PTree.hasMajorBreakLeaf (t : PTree) : Bool :=
  t.leaves.any (fun l =>
    match l with
    | .breakWord .major _ _ _ _ => true
    | _ => false)

/-- One step of `_break_sentences` for a single major break leaf inside
the sentence at `sIdx` of the paragraph's edge list, where `i` is
`break_edge_idx` — the index in the sentence's edge list of the edge on
the path from the sentence down to the break leaf.  Mirrors the source:
explicit sentences are skipped; if no edges follow `i` the break is
terminal and nothing happens; otherwise a fresh implicit sentence is
inserted immediately after the current one and the edges after `i` are
moved to it in order. -/
def breakStep (para : List SentT) (sIdx i : Nat) : List SentT :=
  match para.get? sIdx with
  | none => para
  | some s =>
    if !s.implicit then para
    else if (s.edges.drop (i + 1)).isEmpty then para
    else
      para.take sIdx ++
        [⟨s.implicit, s.edges.take (i + 1)⟩, ⟨true, s.edges.drop (i + 1)⟩] ++
        para.drop (sIdx + 1)

/-- Cut an edge list after every edge containing a major break leaf, except
when no edges follow (terminal break). -/
def groupEdges : List PTree → List (List PTree)
  | [] => []
  | [e] => [[e]]
  | e :: e' :: rest =>
    if e.hasMajorBreakLeaf then [e] :: groupEdges (e' :: rest)
    else
      match groupEdges (e' :: rest) with
      | g :: gs => (e :: g) :: gs
      | [] => [[e]]

/-- `_break_sentences`: the source iterates over a snapshot of all leaves in
document order and applies `breakStep` at each major break; the net effect
on a paragraph is that every implicit sentence is cut after each edge that
contains a major break leaf (terminal breaks excepted), the first piece
keeping the original sentence node and the others becoming fresh implicit
sentences. -/
def breakSentences (para : List SentT) : List SentT :=
  para.flatMap (fun s =>
    if !s.implicit then [s]
    else
      match groupEdges s.edges with
      | [] => [s]
      | g :: gs => ⟨s.implicit, g⟩ :: gs.map (fun g' => SentT.mk true g'))

/-!  ## Sentence iteration (`TextProcessor.sentences`)  -/

/-- A `Word` record as emitted by `sentences()` (the fields the claims
read). -/
structure EmittedWord where
  text : Str
  textWithWs : Str
  isBreak : Bool := false
  isPunctuation : Bool := false
deriving Repr, DecidableEq

/-- Emission of one leaf by `sentences()`: `WordNode` leaves always
produce a word, `BreakWordNode` and `PunctuationWordNode` leaves only when
the respective flag is set, and all other leaves (`BreakNode`,
`IgnoreNode`) are skipped. -/
def emitLeaf (majorBreaks minorBreaks punctuations : Bool) :
    Leaf → Option EmittedWord
  | .word w => some ⟨w.text, w.textWithWs, false, false⟩
  | .breakWord bt text ws _ _ =>
    if (bt = .major ∧ majorBreaks) ∨ (bt = .minor ∧ minorBreaks) then
      some ⟨text, ws, true, false⟩
    else none
  | .punctWord text ws _ _ =>
    if punctuations then some ⟨text, ws, false, true⟩ else none
  | .breakNode _ => none
  | .ignore => none

/-- The words of one sentence in document order. -/
def sentenceEmit (mjr mnr pnc : Bool) (s : SentT) : List EmittedWord :=
  (PTree.leavesList s.edges).filterMap (emitLeaf mjr mnr pnc)

/-- `sentences()`: one record per sentence that emitted at least one word
(a sentence whose words list stays empty is never yielded). -/
def sentencesOut (mjr mnr pnc : Bool) (para : List SentT) :
    List (List EmittedWord) :=
  (para.map (sentenceEmit mjr mnr pnc)).filter (fun ws => !ws.isEmpty)

/-- The concatenation, in emission order, of `text_with_ws` over all words
of all sentences. -/
def emittedConcat (out : List (List EmittedWord)) : Str :=
  (out.flatMap (fun ws => ws.map (fun w => w.textWithWs))).flatten

/-!  ## `TextProcessor.__call__` for plain text input  -/

/-- Apply a split pass to every sentence of the paragraph. -/
def paraSplit (f : Leaf → List Leaf) (para : List SentT) : List SentT :=
  para.map (fun s => ⟨s.implicit, runSplitTList f s.edges⟩)

/-- Apply a transform pass to every sentence of the paragraph. -/
def paraTransform (f : Leaf → Leaf) (para : List SentT) : List SentT :=
  para.map (fun s => ⟨s.implicit, runTransformTList f s.edges⟩)

/-- Apply a verbalize pass to every sentence of the paragraph. -/
def paraVerb (f : Leaf → Leaf × List Leaf) (para : List SentT) : List SentT :=
  para.map (fun s => ⟨s.implicit, runVerbTList f s.edges⟩)

/-- `TextProcessor.__call__` on plain (escaped, `<speak>`-wrapped) text
under a single language: the tree builder produces one implicit
speak → paragraph → sentence chain holding the tokenized words (no chunk at
all when the text is blank — `text_and_elements` only yields text with
non-whitespace content), and then the passes run in the source's fixed
order.  POS tagging and phonemization mutate only `pos`/`role`/`phonemes`
and are applied separately. -/
def processPlain (st : Settings) (n2wCur : ℚ → Str → Except Str Str)
    (text : Str) : List SentT :=
  if !(hasContent text) then []
  else
    let sent0 : SentT :=
      ⟨true, (pipelineTokenize st text).map (fun w => PTree.node (.word w) [])⟩
    let p1 := paraSplit (splitReplacements st) [sent0]
    let p2 := paraSplit (splitPunctuations st) p1
    let p3 := paraSplit (splitMinorBreaks st) p2
    let p4 := paraSplit (splitAbbreviations st) p3
    let p5 := paraSplit (splitInitialism st) p4
    let p6 := paraSplit (splitMajorBreaks st) p5
    let p7 := paraSplit (splitPunctuations st) p6
    let p8 := paraSplit (splitInitialism st) p7
    let p9 := breakSentences p8
    let p10 := paraSplit (splitSpellOut st) p9
    let p11 := paraTransform (liftW (transformNumber st)) p10
    let p12 := paraTransform (liftW (transformCurrency st)) p11
    let p13 := paraTransform (liftW (transformDate st)) p12
    let p14 := paraVerb (liftV (verbalizeNumber st)) p13
    let p15 := paraVerb (liftV (verbalizeCurrency st n2wCur)) p14
    let p16 := paraVerb (liftV (verbalizeDate st)) p15
    let p17 := paraSplit (breakWords st) p16
    paraSplit (splitIgnoreNonWords st) p17

/-- The default `TextProcessor()` settings (`en_US`), parameterized by the
external decimal parser: every pattern set empty (hence every compiled
pattern `None`), whitespace kept, the `has_digit` gates in place, and the
babel-derived currency table. -/
def plainSettings (parse : Str → Option ℚ) : Settings :=
  { currencies := [(S "$", S "USD")], parseDecimal := parse }

/-!  ## Identity behaviour of the passes under default settings  -/

theorem mem_of_mem_dropWhile (p : Char → Bool) (l : Str) (c : Char)
    (h : c ∈ l.dropWhile p) : c ∈ l := by
  induction l with
  | nil => simpa [List.dropWhile] using h
  | cons a t ih =>
    rw [List.dropWhile_cons] at h
    by_cases hp : p a = true
    · rw [hp] at h
      simp only [if_true] at h
      exact List.mem_cons_of_mem _ (ih h)
    · have hpf : p a = false := by simpa using hp
      rw [hpf] at h
      simpa using h

theorem mem_of_mem_pyStrip (s : Str) (c : Char) (h : c ∈ pyStrip s) :
    c ∈ s := by
  unfold pyStrip pyRStrip pyLStrip at h
  rw [List.mem_reverse] at h
  have h1 := mem_of_mem_dropWhile _ _ _ h
  rw [List.mem_reverse] at h1
  exact mem_of_mem_dropWhile _ _ _ h1

/-- Every word `_pipeline_tokenize` creates starts with an unset
`interpret_as`, carries the implicit flag, and its `text` is the strip of
its `text_with_ws`. -/
theorem pipelineTokenize_shape (st : Settings) (text : Str) :
    ∀ w ∈ pipelineTokenize st text,
      w.interpretAs = [] ∧ w.implicit = true ∧ w.text = pyStrip w.textWithWs ∧
        w.textWithWs ∈ tokenizeTexts st.keepWhitespace text := by
  intro w hw
  unfold pipelineTokenize at hw
  obtain ⟨t, ht, rfl⟩ := List.mem_map.mp hw
  exact ⟨rfl, rfl, rfl, ht⟩

/-- With whitespace kept, every character of a tokenized word occurs in the
input text. -/
theorem tokenizeTexts_chars (text t : Str) (hcontent : hasContent text = true)
    (ht : t ∈ tokenizeTexts true text) : ∀ c ∈ t, c ∈ text := by
  intro c hc
  have hconcat := tokenizeTexts_flatten text hcontent
  rw [← hconcat]
  exact List.mem_flatten.mpr ⟨t, ht, hc⟩

theorem paraSplit_singleton_id (f : Leaf → List Leaf) (impl : Bool)
    (ws : List WordData) (h : ∀ w ∈ ws, f (.word w) = []) :
    paraSplit f [⟨impl, ws.map (fun w => PTree.node (.word w) [])⟩] =
      [⟨impl, ws.map (fun w => PTree.node (.word w) [])⟩] := by
  unfold paraSplit
  simp only [List.map_cons, List.map_nil]
  congr 2
  induction ws with
  | nil => rfl
  | cons w t ih =>
    simp only [List.map_cons]
    rw [runSplitTList, runSplitT]
    simp only [List.isEmpty_nil, if_true]
    rw [h w (List.mem_cons_self _ _)]
    rw [ih (fun w' hw' => h w' (List.mem_cons_of_mem _ hw'))]

theorem paraTransform_singleton_id (f : Leaf → Leaf) (impl : Bool)
    (ws : List WordData) (h : ∀ w ∈ ws, f (.word w) = .word w) :
    paraTransform f [⟨impl, ws.map (fun w => PTree.node (.word w) [])⟩] =
      [⟨impl, ws.map (fun w => PTree.node (.word w) [])⟩] := by
  unfold paraTransform
  simp only [List.map_cons, List.map_nil]
  congr 2
  induction ws with
  | nil => rfl
  | cons w t ih =>
    simp only [List.map_cons]
    rw [runTransformTList, runTransformT]
    simp only [List.isEmpty_nil, if_true]
    rw [h w (List.mem_cons_self _ _)]
    rw [ih (fun w' hw' => h w' (List.mem_cons_of_mem _ hw'))]

theorem paraVerb_singleton_id (f : Leaf → Leaf × List Leaf) (impl : Bool)
    (ws : List WordData) (h : ∀ w ∈ ws, f (.word w) = (.word w, [])) :
    paraVerb f [⟨impl, ws.map (fun w => PTree.node (.word w) [])⟩] =
      [⟨impl, ws.map (fun w => PTree.node (.word w) [])⟩] := by
  unfold paraVerb
  simp only [List.map_cons, List.map_nil]
  congr 2
  induction ws with
  | nil => rfl
  | cons w t ih =>
    simp only [List.map_cons]
    rw [runVerbTList, runVerbT]
    simp only [List.isEmpty_nil, if_true]
    rw [h w (List.mem_cons_self _ _)]
    rw [ih (fun w' hw' => h w' (List.mem_cons_of_mem _ hw'))]
    rfl

theorem groupEdges_no_break (es : List PTree)
    (h : ∀ e ∈ es, e.hasMajorBreakLeaf = false) :
    es = [] ∨ groupEdges es = [es] := by
  induction es with
  | nil => exact Or.inl rfl
  | cons e t ih =>
    refine Or.inr ?_
    cases t with
    | nil => rfl
    | cons e' rest =>
      rw [groupEdges]
      rw [h e (List.mem_cons_self _ _)]
      simp only [Bool.false_eq_true, if_false]
      rcases ih (fun x hx => h x (List.mem_cons_of_mem _ hx)) with h0 | hgr
      · exact absurd h0 (by simp)
      · rw [hgr]

theorem breakSentences_no_break (impl : Bool) (es : List PTree)
    (h : ∀ e ∈ es, e.hasMajorBreakLeaf = false) :
    breakSentences [⟨impl, es⟩] = [⟨impl, es⟩] := by
  unfold breakSentences
  simp only [List.flatMap_cons, List.flatMap_nil, List.append_nil]
  by_cases hi : impl
  · subst hi
    simp only [Bool.not_true, Bool.false_eq_true, if_false]
    rcases groupEdges_no_break es h with h0 | hgr
    · subst h0
      rfl
    · rw [hgr]
      rfl
  · have : impl = false := by simpa using hi
    subst this
    rfl

/-- A single word node contains no major break leaf. -/
theorem wordNode_no_break (w : WordData) :
    (PTree.node (.word w) []).hasMajorBreakLeaf = false := by
  rfl

/-!  Per-pass behaviour on a default-configured word leaf.  -/

theorem splitReplacements_default (parse : Str → Option ℚ) (w : WordData) :
    splitReplacements (plainSettings parse) (.word w) = [] := by
  simp only [splitReplacements]
  by_cases h : w.interpretAs ≠ []
  · rw [if_pos h]
  · rw [if_neg h]
    rfl

theorem splitPunctuations_default (parse : Str → Option ℚ) (w : WordData) :
    splitPunctuations (plainSettings parse) (.word w) = [] := by
  simp only [splitPunctuations]
  by_cases h : w.interpretAs ≠ []
  · rw [if_pos h]
  · rw [if_neg h]
    rw [if_pos]
    exact ⟨rfl, rfl⟩

theorem splitMinorBreaks_default (parse : Str → Option ℚ) (w : WordData) :
    splitMinorBreaks (plainSettings parse) (.word w) = [] := by
  simp only [splitMinorBreaks]
  by_cases h : w.interpretAs ≠ []
  · rw [if_pos h]
  · rw [if_neg h]
    rfl

theorem splitMajorBreaks_default (parse : Str → Option ℚ) (w : WordData) :
    splitMajorBreaks (plainSettings parse) (.word w) = [] := by
  simp only [splitMajorBreaks]
  by_cases h : w.interpretAs ≠ []
  · rw [if_pos h]
  · rw [if_neg h]
    rfl

theorem splitAbbreviations_default (parse : Str → Option ℚ) (w : WordData) :
    splitAbbreviations (plainSettings parse) (.word w) = [] := by
  simp only [splitAbbreviations]
  by_cases h : w.interpretAs ≠ []
  · rw [if_pos h]
  · rw [if_neg h]
    rfl

theorem splitInitialism_default (parse : Str → Option ℚ) (w : WordData) :
    splitInitialism (plainSettings parse) (.word w) = [] := by
  simp only [splitInitialism]
  by_cases h : w.interpretAs ≠ []
  · rw [if_pos h]
  · rw [if_neg h]
    rfl

theorem splitSpellOut_default (parse : Str → Option ℚ) (w : WordData)
    (hw : w.interpretAs = []) :
    splitSpellOut (plainSettings parse) (.word w) = [] := by
  simp only [splitSpellOut]
  rw [if_pos]
  rw [hw]
  decide

theorem breakWords_default (parse : Str → Option ℚ) (w : WordData) :
    breakWords (plainSettings parse) (.word w) = [] := by
  simp only [breakWords]
  by_cases h : w.interpretAs ≠ []
  · rw [if_pos h]
  · rw [if_neg h]
    by_cases hi : !w.implicit
    · rw [if_pos hi]
    · rw [if_neg hi]
      rfl

theorem splitIgnoreNonWords_default (parse : Str → Option ℚ) (w : WordData) :
    splitIgnoreNonWords (plainSettings parse) (.word w) = [] := by
  simp only [splitIgnoreNonWords]
  by_cases h : w.interpretAs ≠ []
  · rw [if_pos h]
  · rw [if_neg h]
    rfl

theorem transformNumber_fail (st : Settings) (w : WordData)
    (hp : st.parseDecimal w.text = none) :
    transformNumber st w = w := by
  unfold transformNumber
  rw [hp]
  split <;> rfl

theorem transformCurrency_nodigit (st : Settings) (w : WordData)
    (hm : st.isMaybeCurrency w.text = false) :
    transformCurrency st w = w := by
  unfold transformCurrency
  rw [hm]
  split <;> rfl

theorem transformDate_nodigit (st : Settings) (w : WordData)
    (hm : st.isMaybeDate w.text = false) :
    transformDate st w = w := by
  unfold transformDate
  rw [hm]
  split <;> rfl

theorem verbalizeNumber_skip (st : Settings) (w : WordData)
    (hw : w.interpretAs = []) :
    verbalizeNumber st w = (w, []) := by
  unfold verbalizeNumber
  rw [if_pos]
  rw [hw]
  decide

theorem verbalizeCurrency_skip (st : Settings)
    (n2wCur : ℚ → Str → Except Str Str) (w : WordData)
    (hw : w.interpretAs = []) :
    verbalizeCurrency st n2wCur w = (w, []) := by
  unfold verbalizeCurrency
  rw [if_pos]
  left
  rw [hw]
  decide

theorem verbalizeDate_skip (st : Settings) (w : WordData)
    (hw : w.interpretAs = []) :
    verbalizeDate st w = (w, []) := by
  unfold verbalizeDate
  rw [if_pos]
  rw [hw]
  decide

/-- Under default settings, a digit-free text chunk passes through the
whole pipeline untouched: the paragraph remains one implicit sentence
holding exactly the tokenized words. -/
theorem processPlain_default (parse : Str → Option ℚ)
    (n2wCur : ℚ → Str → Except Str Str) (text : Str)
    (hparse : ∀ t : Str, has_digit t = false → parse t = none)
    (hdig : ∀ c ∈ text, c.isDigit = false)
    (hcontent : hasContent text = true) :
    processPlain (plainSettings parse) n2wCur text =
      [⟨true, (pipelineTokenize (plainSettings parse) text).map
        (fun w => PTree.node (.word w) [])⟩] := by
  have hshape := pipelineTokenize_shape (plainSettings parse) text
  have hId : ∀ w ∈ pipelineTokenize (plainSettings parse) text,
      w.interpretAs = [] := fun w hw => (hshape w hw).1
  have hdigw : ∀ w ∈ pipelineTokenize (plainSettings parse) text,
      has_digit w.text = false := by
    intro w hw
    obtain ⟨-, -, htx, hmem⟩ := hshape w hw
    rw [htx]
    simp only [has_digit, List.any_eq_false]
    intro c hc
    have hct : c ∈ w.textWithWs := mem_of_mem_pyStrip _ _ hc
    have := tokenizeTexts_chars text w.textWithWs hcontent hmem c hct
    simp [hdig c this]
  have hnobk : ∀ e ∈ (pipelineTokenize (plainSettings parse) text).map
      (fun w => PTree.node (.word w) []), e.hasMajorBreakLeaf = false := by
    intro e he
    obtain ⟨w, -, rfl⟩ := List.mem_map.mp he
    exact wordNode_no_break w
  simp only [processPlain, hcontent, Bool.not_true, Bool.false_eq_true,
    if_false]
  rw [paraSplit_singleton_id _ _ _ (fun w _ => splitReplacements_default parse w)]
  rw [paraSplit_singleton_id _ _ _ (fun w _ => splitPunctuations_default parse w)]
  rw [paraSplit_singleton_id _ _ _ (fun w _ => splitMinorBreaks_default parse w)]
  rw [paraSplit_singleton_id _ _ _ (fun w _ => splitAbbreviations_default parse w)]
  rw [paraSplit_singleton_id _ _ _ (fun w _ => splitInitialism_default parse w)]
  rw [paraSplit_singleton_id _ _ _ (fun w _ => splitMajorBreaks_default parse w)]
  rw [paraSplit_singleton_id _ _ _ (fun w _ => splitPunctuations_default parse w)]
  rw [paraSplit_singleton_id _ _ _ (fun w _ => splitInitialism_default parse w)]
  rw [breakSentences_no_break true _ hnobk]
  rw [paraSplit_singleton_id _ _ _
    (fun w hw => splitSpellOut_default parse w (hId w hw))]
  rw [paraTransform_singleton_id _ _ _ (fun w hw => by
    simp only [liftW, transformNumber_fail (plainSettings parse) w
      (show (plainSettings parse).parseDecimal w.text = none from
        hparse _ (hdigw w hw))])]
  rw [paraTransform_singleton_id _ _ _ (fun w hw => by
    simp only [liftW, transformCurrency_nodigit (plainSettings parse) w
      (show (plainSettings parse).isMaybeCurrency w.text = false from
        hdigw w hw)])]
  rw [paraTransform_singleton_id _ _ _ (fun w hw => by
    simp only [liftW, transformDate_nodigit (plainSettings parse) w
      (show (plainSettings parse).isMaybeDate w.text = false from
        hdigw w hw)])]
  rw [paraVerb_singleton_id _ _ _ (fun w hw => by
    simp only [liftV, verbalizeNumber_skip _ w (hId w hw), List.map_nil])]
  rw [paraVerb_singleton_id _ _ _ (fun w hw => by
    simp only [liftV, verbalizeCurrency_skip _ n2wCur w (hId w hw),
      List.map_nil])]
  rw [paraVerb_singleton_id _ _ _ (fun w hw => by
    simp only [liftV, verbalizeDate_skip _ w (hId w hw), List.map_nil])]
  rw [paraSplit_singleton_id _ _ _ (fun w _ => breakWords_default parse w)]
  rw [paraSplit_singleton_id _ _ _ (fun w _ => splitIgnoreNonWords_default parse w)]

theorem leavesList_word_nodes (ws : List WordData) :
    PTree.leavesList (ws.map (fun w => PTree.node (.word w) [])) =
      ws.map .word := by
  induction ws with
  | nil => rfl
  | cons w t ih =>
    simp only [List.map_cons, PTree.leavesList, ih]
    rfl

theorem filterMap_emit_words (ws : List WordData) :
    (ws.map Leaf.word).filterMap (emitLeaf true true true) =
      ws.map (fun w => ⟨w.text, w.textWithWs, false, false⟩) := by
  induction ws with
  | nil => rfl
  | cons w t ih =>
    simp only [List.map_cons, List.filterMap_cons, emitLeaf, ih]

theorem list_map_id_of (f : Str → Str) (h : ∀ a, f a = a) (L : List Str) :
    L.map f = L := by
  induction L with
  | nil => rfl
  | cons a l ih => simp [h a, ih]

theorem pyStrip_all_ws (s : Str) (h : hasContent s = false) :
    pyStrip s = [] := by
  have hall : ∀ c ∈ s, isWs c = true := by simpa [hasContent] using h
  have hl : pyLStrip s = [] := by
    rw [pyLStrip, List.dropWhile_eq_nil_iff]
    exact hall
  rw [pyStrip, hl]
  rfl

/-- **C1.** With default settings (`keep_whitespace=true`) and an input
that tokenizes to digit-free words none of which parses as a decimal, the
concatenation of `text_with_ws` over the words of the emitted sentences
reconstructs the input exactly whenever the input has any non-whitespace
content, and up to leading/trailing whitespace always (a blank input emits
nothing). -/
theorem c1_text_with_ws_roundtrip (parse : Str → Option ℚ)
    (n2wCur : ℚ → Str → Except Str Str) (text : Str)
    (hparse : ∀ t : Str, has_digit t = false → parse t = none)
    (hdig : ∀ c ∈ text, c.isDigit = false) :
    (hasContent text = true →
      emittedConcat (sentencesOut true true true
        (processPlain (plainSettings parse) n2wCur text)) = text) ∧
    pyStrip (emittedConcat (sentencesOut true true true
      (processPlain (plainSettings parse) n2wCur text))) = pyStrip text := by
  by_cases hcontent : hasContent text = true
  · have hp := processPlain_default parse n2wCur text hparse hdig hcontent
    have htne : tokenizeTexts true text ≠ [] := by
      intro h0
      have hf := tokenizeTexts_flatten text hcontent
      rw [h0] at hf
      simp only [List.flatten_nil] at hf
      rw [← hf] at hcontent
      simp [hasContent] at hcontent
    have hconcat : emittedConcat (sentencesOut true true true
        (processPlain (plainSettings parse) n2wCur text)) = text := by
      rw [hp]
      unfold sentencesOut sentenceEmit
      simp only [List.map_cons, List.map_nil]
      rw [leavesList_word_nodes, filterMap_emit_words]
      have hwne : (pipelineTokenize (plainSettings parse) text).map
          (fun w => (⟨w.text, w.textWithWs, false, false⟩ : EmittedWord)) ≠ [] := by
        simp only [ne_eq, List.map_eq_nil_iff]
        unfold pipelineTokenize
        simp only [List.map_eq_nil_iff]
        exact htne
      rw [List.filter_cons]
      rw [show ((!((pipelineTokenize (plainSettings parse) text).map
          (fun w => (⟨w.text, w.textWithWs, false, false⟩ : EmittedWord))).isEmpty) = true) from by
        simpa using hwne]
      simp only [if_true, List.filter_nil]
      unfold emittedConcat
      simp only [List.flatMap_cons, List.flatMap_nil, List.append_nil,
        List.map_map]
      unfold pipelineTokenize
      simp only [List.map_map]
      rw [list_map_id_of (((fun w : EmittedWord => w.textWithWs) ∘
          fun w : WordData =>
            ({ text := w.text, textWithWs := w.textWithWs, isBreak := false,
               isPunctuation := false } : EmittedWord)) ∘
          fun t : Str =>
            ({ text := pyStrip t, textWithWs := t,
               implicit := true } : WordData)) (fun _ => rfl)]
      exact tokenizeTexts_flatten text hcontent
    exact ⟨fun _ => hconcat, by rw [hconcat]⟩
  · have hcf : hasContent text = false := by simpa using hcontent
    have hempty : processPlain (plainSettings parse) n2wCur text = [] := by
      unfold processPlain
      rw [hcf]
      rfl
    rw [hempty]
    refine ⟨fun hc => absurd hc hcontent, ?_⟩
    rw [pyStrip_all_ws text hcf]
    rfl

/-- Witness for C1 at the concrete input `"This is  a   test    "`: the
emitted `text_with_ws` concatenation is the input itself. -/
theorem c1_text_with_ws_roundtrip_witness :
    emittedConcat (sentencesOut true true true
      (processPlain (plainSettings (fun _ => none)) (fun _ _ => .ok [])
        (S "This is  a   test    "))) = S "This is  a   test    " :=
  (c1_text_with_ws_roundtrip (fun _ => none) (fun _ _ => .ok [])
    (S "This is  a   test    ") (fun _ _ => rfl) (by decide)).1 (by decide)

/-!  ## C2: the sentence breaker  -/

/-- All leaves of a paragraph in document order. -/
def paraLeaves (para : List SentT) : List Leaf :=
  para.flatMap (fun s => PTree.leavesList s.edges)

theorem leavesList_append (a b : List PTree) :
    PTree.leavesList (a ++ b) = PTree.leavesList a ++ PTree.leavesList b := by
  induction a with
  | nil => rfl
  | cons t ts ih =>
    simp only [List.cons_append, PTree.leavesList, List.append_eq, ih,
      List.append_assoc]

/-- **C2.**  For a major break leaf processed by `_break_sentences`, with
`s` the enclosing sentence (at index `sIdx` of the paragraph) and `i` the
index of the sentence out-edge on the path toward the break: an explicit
sentence is left unchanged; a terminal break (no edges after `i`) moves
nothing; otherwise a new implicit sentence appears immediately after the
current one carrying exactly the edges after the break edge in order, the
break edge itself stays in the preceding sentence, and the document-order
leaf sequence of the paragraph is unchanged. -/
theorem c2_break_sentences_step (para : List SentT) (sIdx i : Nat) (s : SentT)
    (hs : para.get? sIdx = some s) :
    (s.implicit = false → breakStep para sIdx i = para) ∧
    (s.implicit = true → s.edges.drop (i + 1) = [] →
      breakStep para sIdx i = para) ∧
    (s.implicit = true → s.edges.drop (i + 1) ≠ [] →
      breakStep para sIdx i =
        para.take sIdx ++
          [⟨s.implicit, s.edges.take (i + 1)⟩, ⟨true, s.edges.drop (i + 1)⟩] ++
          para.drop (sIdx + 1) ∧
      (s.edges.take (i + 1)).get? i = s.edges.get? i ∧
      paraLeaves (breakStep para sIdx i) = paraLeaves para) := by
  refine ⟨?_, ?_, ?_⟩
  · intro hexp
    unfold breakStep
    rw [hs]
    simp [hexp]
  · intro himp hterm
    unfold breakStep
    rw [hs]
    simp [himp, hterm]
  · intro himp hmove
    have hstep : breakStep para sIdx i =
        para.take sIdx ++
          [⟨s.implicit, s.edges.take (i + 1)⟩, ⟨true, s.edges.drop (i + 1)⟩] ++
          para.drop (sIdx + 1) := by
      unfold breakStep
      rw [hs]
      simp only [himp, Bool.not_true, Bool.false_eq_true, if_false]
      rw [if_neg (by simpa using hmove)]
    refine ⟨hstep, ?_, ?_⟩
    · have hi : i < i + 1 := Nat.lt_succ_self i
      simp [List.getElem?_take, hi]
    · rw [hstep]
      have hlt : sIdx < para.length := by
        by_contra hge
        rw [List.get?_eq_getElem?] at hs
        rw [List.getElem?_eq_none (by omega)] at hs
        exact Option.noConfusion hs
      have hget : para[sIdx] = s := by
        rw [List.get?_eq_getElem?, List.getElem?_eq_some_iff] at hs
        exact hs.2
      have hpara : para.take sIdx ++ s :: para.drop (sIdx + 1) = para := by
        conv_rhs => rw [← List.take_append_drop sIdx para]
        congr 1
        rw [List.drop_eq_getElem_cons hlt, hget]
      conv_rhs => rw [← hpara]
      unfold paraLeaves
      simp only [List.flatMap_append, List.flatMap_cons, List.flatMap_nil,
        List.append_nil, List.append_assoc]
      congr 1
      rw [← List.append_assoc, ← leavesList_append, List.take_append_drop]

/-- Witness for C2 on a concrete paragraph: one implicit sentence holding
three word/break edges, broken after edge index 1 — the break edge stays in
the first sentence, a fresh implicit sentence receives exactly the edge
after it, and the leaves are preserved. -/
theorem c2_break_sentences_step_witness :
    breakStep
        [⟨true, [PTree.node (.word { text := S "Hi", textWithWs := S "Hi " }) [],
                 PTree.node (.breakWord .major (S ".") (S ". ") true []) [],
                 PTree.node (.word { text := S "Bye", textWithWs := S "Bye" }) []]⟩]
        0 1 =
      [⟨true, [PTree.node (.word { text := S "Hi", textWithWs := S "Hi " }) [],
               PTree.node (.breakWord .major (S ".") (S ". ") true []) []]⟩,
       ⟨true, [PTree.node (.word { text := S "Bye", textWithWs := S "Bye" }) []]⟩] := by
  have h := (c2_break_sentences_step
    [⟨true, [PTree.node (.word { text := S "Hi", textWithWs := S "Hi " }) [],
             PTree.node (.breakWord .major (S ".") (S ". ") true []) [],
             PTree.node (.word { text := S "Bye", textWithWs := S "Bye" }) []]⟩]
    0 1 _ rfl).2.2 rfl (by simp)
  exact h.1

/-!  ## C4: the number transform  -/

/-- A decimal parser for nonnegative digit strings, a concrete instance of
`babel.numbers.parse_decimal` used in witnesses. -/
def parseDigits (t : Str) : Option ℚ :=
  if t ≠ [] ∧ t.all Char.isDigit then
    some ((t.foldl (fun acc c => acc * 10 + (c.toNat - 48)) 0 : ℕ) : ℚ)
  else none

/-- Settings with a constant-`false` `is_maybe_number` predicate. -/
def c4Settings : Settings :=
  { isMaybeNumber := fun _ => false, parseDecimal := parseDigits }

/-- **C4, counterexample.**  The claim says `_transform_number` attempts
parsing only when `is_maybe_number(text)` holds.  The source consults no
such gate: with `is_maybe_number ≡ false` the transform still parses `"5"`
and sets `interpret_as`/`number`, so the word does not stay unchanged. -/
theorem c4_counterexample :
    c4Settings.isMaybeNumber (S "5") = false ∧
    transformNumber c4Settings { text := S "5", textWithWs := S "5" } =
      { text := S "5", textWithWs := S "5", interpretAs := S "number",
        number := some 5 } := by
  constructor
  · rfl
  · decide

/-- **C4, amended.**  `_transform_number` attempts decimal parsing exactly
when `interpret_as` is unset or already `number` (no `is_maybe_number`
gate); on success it sets `interpret_as=number` and stores the parsed
value, on failure it leaves the word unchanged. -/
theorem c4_transform_number_amended (st : Settings) (w : WordData) :
    (¬(w.interpretAs = [] ∨ w.interpretAs = S "number") →
      transformNumber st w = w) ∧
    ((w.interpretAs = [] ∨ w.interpretAs = S "number") →
      (st.parseDecimal w.text = none → transformNumber st w = w) ∧
      (∀ n, st.parseDecimal w.text = some n →
        transformNumber st w =
          { w with interpretAs := S "number", number := some n })) := by
  constructor
  · intro hgate
    unfold transformNumber
    rw [if_pos]
    push_neg at hgate
    exact ⟨hgate.1, hgate.2⟩
  · intro hgate
    constructor
    · intro hp
      unfold transformNumber
      rw [if_neg (by tauto)]
      rw [hp]
    · intro n hp
      unfold transformNumber
      rw [if_neg (by tauto)]
      rw [hp]

/-- Witness for the amended C4: on a word that fails to parse the
transform is the identity. -/
theorem c4_transform_number_amended_witness :
    transformNumber c4Settings { text := S "abc", textWithWs := S "abc" } =
      { text := S "abc", textWithWs := S "abc" } :=
  ((c4_transform_number_amended c4Settings
    { text := S "abc", textWithWs := S "abc" }).2 (Or.inl rfl)).1 (by decide)

/-!  ## C3: fields set by the transforms  -/

/-- When the currency verbalizer runs on a word with a symbol, a number and
no name yet, it fills `currency_name` from the symbol table (or the default
currency) before calling `num2words` — so afterwards the word has *both*
`currency_symbol` and `currency_name` set. -/
theorem verbalizeCurrency_sets_name (st : Settings)
    (n2wCur : ℚ → Str → Except Str Str) (w : WordData)
    (hia : w.interpretAs = S "currency") (hsym : w.currencySymbol.isSome)
    (hnum : w.number.isSome) (hnm : w.currencyName = none) :
    (verbalizeCurrency st n2wCur w).1.currencySymbol = w.currencySymbol ∧
    (verbalizeCurrency st n2wCur w).1.currencyName = some
      (if st.currencies ≠ [] then
        (st.currencies.lookup (w.currencySymbol.getD [])).getD
          st.defaultCurrency
      else st.defaultCurrency) := by
  obtain ⟨q, hq⟩ := Option.isSome_iff_exists.mp hnum
  unfold verbalizeCurrency
  rw [if_neg]
  · rw [hq]
    simp only [hnm, optStrTruthy, Bool.false_eq_true, if_false]
    cases n2wCur q ((some (if st.currencies ≠ [] then
        (st.currencies.lookup (w.currencySymbol.getD [])).getD
          st.defaultCurrency
      else st.defaultCurrency) : Option Str).getD []) with
    | error e => exact ⟨rfl, rfl⟩
    | ok raw => exact ⟨rfl, rfl⟩
  · push_neg
    refine ⟨by rw [hia], ?_, by rw [hq]; simp⟩
    intro hcs
    exact absurd hcs (by
      intro h
      rw [h] at hsym
      simp at hsym)

/-- Settings for the C3 counterexample: the `en_US` symbol table and a
digit parser. -/
def c3Settings : Settings :=
  { currencies := [(S "$", S "USD")], parseDecimal := parseDigits }

/-- **C3, counterexample.**  For the plain input word `"$10"` the claim
demands exactly one of `currency_symbol` / `currency_name` after the full
pipeline; but after the transforms *and* currency verbalization the word
carries both (`$` and `USD`). -/
theorem c3_counterexample :
    ((verbalizeCurrency c3Settings (fun _ _ => .ok (S "ten dollars"))
        (transformDate c3Settings (transformCurrency c3Settings
          (transformNumber c3Settings
            { text := S "$10", textWithWs := S "$10" })))).1.currencySymbol =
      some (S "$")) ∧
    ((verbalizeCurrency c3Settings (fun _ _ => .ok (S "ten dollars"))
        (transformDate c3Settings (transformCurrency c3Settings
          (transformNumber c3Settings
            { text := S "$10", textWithWs := S "$10" })))).1.currencyName =
      some (S "USD")) := by
  constructor
  · decide
  · decide

/-- The fixed transform order of `__call__`: number → currency → date. -/
def transformsPipeline (st : Settings) (w : WordData) : WordData :=
  transformDate st (transformCurrency st (transformNumber st w))

theorem transformNumber_cases (st : Settings) (w : WordData)
    (hia : w.interpretAs = []) :
    transformNumber st w = w ∨
      ∃ n, transformNumber st w =
        { w with interpretAs := S "number", number := some n } := by
  unfold transformNumber
  rw [if_neg (by simp [hia])]
  cases hp : st.parseDecimal w.text with
  | none => exact Or.inl rfl
  | some n => exact Or.inr ⟨n, rfl⟩

theorem transformCurrency_skip (st : Settings) (w : WordData)
    (h : w.interpretAs ≠ [] ∧ w.interpretAs ≠ S "currency") :
    transformCurrency st w = w := by
  unfold transformCurrency
  rw [if_pos h]

theorem transformDate_skip (st : Settings) (w : WordData)
    (h : w.interpretAs ≠ [] ∧ w.interpretAs ≠ S "date") :
    transformDate st w = w := by
  unfold transformDate
  rw [if_pos h]

theorem transformCurrency_cases (st : Settings) (w : WordData)
    (hia : w.interpretAs = []) :
    transformCurrency st w = w ∨
      ∃ sym n, transformCurrency st w =
        { w with interpretAs := S "currency", currencySymbol := some sym,
                 number := some n } := by
  unfold transformCurrency
  rw [if_neg (by simp [hia])]
  cases hm : st.isMaybeCurrency w.text with
  | false =>
    refine Or.inl ?_
    simp only [hm, Bool.not_false, if_true]
  | true =>
    simp only [hm, Bool.not_true, Bool.false_eq_true, if_false]
    cases hf : st.currencySymbols.findSome? (fun sym =>
        if sym.isPrefixOf w.text then
          match st.parseDecimal (w.text.drop sym.length) with
          | some n => some (sym, n)
          | none => none
        else none) with
    | none =>
      rw [if_neg]
      · exact Or.inl rfl
      · intro hcond
        rw [hia] at hcond
        exact absurd hcond.1 (by decide)
    | some p =>
      obtain ⟨sym, n⟩ := p
      exact Or.inr ⟨sym, n, rfl⟩

theorem transformDate_cases (st : Settings) (w : WordData)
    (hia : w.interpretAs = []) :
    transformDate st w = w ∨
      ∃ d, transformDate st w =
        { w with interpretAs := S "date", date := some d } := by
  unfold transformDate
  rw [if_neg (by simp [hia])]
  cases hm : st.isMaybeDate w.text with
  | false =>
    refine Or.inl ?_
    simp only [hm, Bool.not_false, if_true]
  | true =>
    simp only [hm, Bool.not_true, Bool.false_eq_true, if_false]
    cases hp : st.parseDateStrict w.text with
    | some d => exact Or.inr ⟨d, rfl⟩
    | none =>
      rw [if_neg]
      · exact Or.inl rfl
      · rw [hia]
        decide

/-- **C3, amended.**  For a word entering the transforms with unset
`interpret_as` and no currency name (every word the tokenizer or a split
pass creates): after number → currency → date, `interpret_as=number`
implies `number` set, `=date` implies `date` set, and `=currency` implies
`number` and `currency_symbol` set with `currency_name` still unset — the
exactly-one property holds only *before* currency verbalization, which
then fills `currency_name`, leaving both fields set.  (A word *forced* to
a class by `<say-as>` whose text fails to parse keeps `interpret_as` with
the corresponding field unset, a second failure of the original claim.) -/
theorem c3_interpret_fields_amended (st : Settings)
    (n2wCur : ℚ → Str → Except Str Str) (w : WordData)
    (hia : w.interpretAs = []) (hnm : w.currencyName = none) :
    ((transformsPipeline st w).interpretAs = S "number" →
      (transformsPipeline st w).number.isSome) ∧
    ((transformsPipeline st w).interpretAs = S "date" →
      (transformsPipeline st w).date.isSome) ∧
    ((transformsPipeline st w).interpretAs = S "currency" →
      (transformsPipeline st w).number.isSome ∧
      (transformsPipeline st w).currencySymbol.isSome ∧
      (transformsPipeline st w).currencyName = none ∧
      (verbalizeCurrency st n2wCur (transformsPipeline st w)).1.currencySymbol.isSome ∧
      (verbalizeCurrency st n2wCur (transformsPipeline st w)).1.currencyName.isSome) := by
  unfold transformsPipeline
  rcases transformNumber_cases st w hia with h1 | ⟨n, h1⟩
  · rw [h1]
    rcases transformCurrency_cases st w hia with h2 | ⟨sym, n, h2⟩
    · rw [h2]
      rcases transformDate_cases st w hia with h3 | ⟨d, h3⟩
      · rw [h3]
        rw [hia]
        refine ⟨?_, ?_, ?_⟩ <;> intro hx
        · exact absurd hx (show ¬([] : Str) = S "number" by decide)
        · exact absurd hx (show ¬([] : Str) = S "date" by decide)
        · exact absurd hx (show ¬([] : Str) = S "currency" by decide)
      · rw [h3]
        refine ⟨?_, ?_, ?_⟩ <;> intro hx
        · exact absurd hx (show ¬(S "date") = S "number" by decide)
        · simp
        · exact absurd hx (show ¬(S "date") = S "currency" by decide)
    · rw [h2]
      have h3 := transformDate_skip st
        { w with interpretAs := S "currency", currencySymbol := some sym,
                 number := some n }
        ⟨show (S "currency") ≠ ([] : Str) by decide,
         show (S "currency") ≠ S "date" by decide⟩
      rw [h3]
      refine ⟨?_, ?_, ?_⟩ <;> intro hx
      · exact absurd hx (show ¬(S "currency") = S "number" by decide)
      · exact absurd hx (show ¬(S "currency") = S "date" by decide)
      · have hset := verbalizeCurrency_sets_name st n2wCur
          { w with interpretAs := S "currency", currencySymbol := some sym,
                   number := some n } rfl (by simp) (by simp) (by simpa using hnm)
        refine ⟨by simp, by simp, by simpa using hnm, ?_, ?_⟩
        · rw [hset.1]
          simp
        · rw [hset.2]
          simp
  · rw [h1]
    have h2 := transformCurrency_skip st
      { w with interpretAs := S "number", number := some n }
      ⟨show (S "number") ≠ ([] : Str) by decide,
       show (S "number") ≠ S "currency" by decide⟩
    rw [h2]
    have h3 := transformDate_skip st
      { w with interpretAs := S "number", number := some n }
      ⟨show (S "number") ≠ ([] : Str) by decide,
       show (S "number") ≠ S "date" by decide⟩
    rw [h3]
    refine ⟨?_, ?_, ?_⟩ <;> intro hx
    · simp
    · exact absurd hx (show ¬(S "number") = S "date" by decide)
    · exact absurd hx (show ¬(S "number") = S "currency" by decide)

/-- Witness for the amended C3 at the `"$10"` word: after the transforms
the currency fields are as stated. -/
theorem c3_interpret_fields_amended_witness :
    (transformsPipeline c3Settings
        { text := S "$10", textWithWs := S "$10" }).interpretAs =
      S "currency" ∧
    (transformsPipeline c3Settings
        { text := S "$10", textWithWs := S "$10" }).number.isSome ∧
    (transformsPipeline c3Settings
        { text := S "$10", textWithWs := S "$10" }).currencySymbol.isSome ∧
    (transformsPipeline c3Settings
        { text := S "$10", textWithWs := S "$10" }).currencyName = none := by
  have h := (c3_interpret_fields_amended c3Settings
    (fun _ _ => .ok (S "ten dollars"))
    { text := S "$10", textWithWs := S "$10" } rfl rfl).2.2 (by decide)
  exact ⟨by decide, h.1, h.2.1, h.2.2.1⟩

/-!  ## C5: ordering of compiled alternations  -/

/-- The list is ordered by (weakly) decreasing literal length. -/
def sortedByLenDesc : List Str → Bool
  | [] => true
  | [_] => true
  | a :: b :: t => decide (b.length ≤ a.length) && sortedByLenDesc (b :: t)

theorem sortedByLenDesc_tail (y : Str) (ys : List Str)
    (h : sortedByLenDesc (y :: ys) = true) : sortedByLenDesc ys = true := by
  cases ys with
  | nil => rfl
  | cons b t =>
    rw [sortedByLenDesc] at h
    exact ((Bool.and_eq_true _ _).mp h).2

theorem sortedByLenDesc_head_ge (y : Str) (ys : List Str)
    (h : sortedByLenDesc (y :: ys) = true) :
    ∀ b ∈ ys, b.length ≤ y.length := by
  induction ys generalizing y with
  | nil => intro b hb; simp at hb
  | cons b t ih =>
    intro c hc
    rw [sortedByLenDesc] at h
    obtain ⟨h1, h2⟩ := (Bool.and_eq_true _ _).mp h
    have hby : b.length ≤ y.length := by simpa using h1
    rcases List.mem_cons.mp hc with rfl | hct
    · exact hby
    · exact le_trans (ih b h2 c hct) hby

theorem sortedByLenDesc_cons_of (a : Str) (l : List Str)
    (h1 : sortedByLenDesc l = true) (h2 : ∀ b ∈ l, b.length ≤ a.length) :
    sortedByLenDesc (a :: l) = true := by
  cases l with
  | nil => rfl
  | cons b t =>
    rw [sortedByLenDesc]
    rw [Bool.and_eq_true _ _]
    exact ⟨by simpa using h2 b (List.mem_cons_self _ _), h1⟩

theorem mem_insertByLenDesc (x : Str) (l : List Str) :
    ∀ y ∈ insertByLenDesc x l, y = x ∨ y ∈ l := by
  induction l with
  | nil =>
    intro y hy
    rw [insertByLenDesc] at hy
    simp at hy
    exact Or.inl hy
  | cons a t ih =>
    intro y hy
    rw [insertByLenDesc] at hy
    by_cases hc : a.length < x.length
    · rw [if_pos hc] at hy
      rcases List.mem_cons.mp hy with rfl | hy2
      · exact Or.inl rfl
      · exact Or.inr hy2
    · rw [if_neg hc] at hy
      rcases List.mem_cons.mp hy with rfl | hy2
      · exact Or.inr (List.mem_cons_self _ _)
      · rcases ih y hy2 with h | h
        · exact Or.inl h
        · exact Or.inr (List.mem_cons_of_mem _ h)

theorem sortedByLenDesc_insert (x : Str) (l : List Str)
    (h : sortedByLenDesc l = true) :
    sortedByLenDesc (insertByLenDesc x l) = true := by
  induction l with
  | nil => rfl
  | cons y ys ih =>
    rw [insertByLenDesc]
    by_cases hc : y.length < x.length
    · rw [if_pos hc]
      refine sortedByLenDesc_cons_of _ _ h ?_
      intro b hb
      rcases List.mem_cons.mp hb with rfl | hbt
      · exact le_of_lt hc
      · exact le_trans (sortedByLenDesc_head_ge y ys h b hbt) (le_of_lt hc)
    · rw [if_neg hc]
      push_neg at hc
      refine sortedByLenDesc_cons_of _ _ (ih (sortedByLenDesc_tail y ys h)) ?_
      intro b hb
      rcases mem_insertByLenDesc x ys b hb with rfl | hmem
      · exact hc
      · exact sortedByLenDesc_head_ge y ys h b hmem

theorem sortByLenDesc_sorted (l : List Str) :
    sortedByLenDesc (sortByLenDesc l) = true := by
  suffices h : ∀ acc, sortedByLenDesc acc = true →
      sortedByLenDesc (l.foldl (fun acc x => insertByLenDesc x acc) acc) = true by
    exact h [] rfl
  induction l with
  | nil => intro acc hacc; exact hacc
  | cons x t ih =>
    intro acc hacc
    exact ih _ (sortedByLenDesc_insert x acc hacc)

/-- Begin punctuations for the counterexample, in set-iteration order with
the shorter literal first. -/
def c5Settings : Settings := { beginPunctuations := [S "«", S "««"] }

/-- **C5, counterexample.**  The compiled begin-punctuation alternation
keeps the set-iteration order — the source applies no sorting — so it is
not ordered by decreasing length, and on a word starting with `««` the
start-anchored alternation matches the *shorter* literal `«` although the
longer `««` is also a prefix. -/
theorem c5_counterexample :
    c5Settings.beginPunctuationsPattern = some [S "«", S "««"] ∧
    sortedByLenDesc [S "«", S "««"] = false ∧
    (S "«").isPrefixOf (S "««x") = true ∧
    (S "««").isPrefixOf (S "««x") = true ∧
    beginSplitStep [S "«", S "««"] (S "««x") = some (S "«", S "«x") := by
  refine ⟨rfl, rfl, rfl, rfl, ?_⟩
  decide

/-- **C5, amended.**  `__post_init__` compiles the begin/end punctuation
and break alternations with the literals in set-iteration order, applying
no sorting, so the begin-punctuation peel matches the *first* configured
prefix in that order (not necessarily the longest); only
`currency_symbols` is sorted by decreasing length. -/
theorem c5_patterns_amended (st : Settings) :
    (st.beginPunctuations ≠ [] →
      st.beginPunctuationsPattern = some st.beginPunctuations) ∧
    (st.endPunctuations ≠ [] →
      st.endPunctuationsPattern = some st.endPunctuations) ∧
    (st.majorBreaks ≠ [] → st.majorBreaksPattern = some st.majorBreaks) ∧
    (st.minorBreaks ≠ [] → st.minorBreaksPattern = some st.minorBreaks) ∧
    sortedByLenDesc st.currencySymbols = true ∧
    (∀ lits t l r, beginSplitStep lits t = some (l, r) →
      lits.find? (fun l' => l'.isPrefixOf t) = some l) := by
  refine ⟨?_, ?_, ?_, ?_, ?_, ?_⟩
  · intro h
    unfold Settings.beginPunctuationsPattern
    rw [if_neg h]
  · intro h
    unfold Settings.endPunctuationsPattern
    rw [if_neg h]
  · intro h
    unfold Settings.majorBreaksPattern
    rw [if_neg h]
  · intro h
    unfold Settings.minorBreaksPattern
    rw [if_neg h]
  · exact sortByLenDesc_sorted _
  · intro lits t l r h
    unfold beginSplitStep at h
    cases hf : lits.find? (fun l' => l'.isPrefixOf t) with
    | none =>
      simp only [hf] at h
      exact Option.noConfusion h
    | some l' =>
      simp only [hf] at h
      by_cases hc : l' = [] ∨ t.drop l'.length = []
      · rw [if_pos hc] at h
        exact absurd h (by simp)
      · rw [if_neg hc] at h
        rw [Option.some.injEq, Prod.mk.injEq] at h
        rw [h.1]

/-- Witness for the amended C5 at the counterexample settings: the
compiled pattern keeps set order and the currency symbols are sorted. -/
theorem c5_patterns_amended_witness :
    c5Settings.beginPunctuationsPattern = some [S "«", S "««"] ∧
    sortedByLenDesc c3Settings.currencySymbols = true :=
  ⟨(c5_patterns_amended c5Settings).1 (by decide),
   (c5_patterns_amended c3Settings).2.2.2.2.1⟩

/-!  ## C6: abbreviations  -/

theorem takeWhile_all (p : Char → Bool) (l : Str)
    (h : ∀ a ∈ l, p a = true) : l.takeWhile p = l := by
  induction l with
  | nil => rfl
  | cons a t ih =>
    rw [List.takeWhile_cons, h a (List.mem_cons_self _ _)]
    simp only [if_true]
    rw [ih (fun b hb => h b (List.mem_cons_of_mem _ hb))]

theorem wsGroups_nil : wsGroups [] = [] := by rw [wsGroups]

/-- A nonempty text with no whitespace splits into a single group. -/
theorem wsGroups_single_token (s : Str) (hne : s ≠ [])
    (hall : ∀ c ∈ s, isWs c = false) : wsGroups s = [⟨s, []⟩] := by
  cases s with
  | nil => exact absurd rfl hne
  | cons c t =>
    rw [wsGroups]
    have h1 : (c :: t).takeWhile (fun c => !(isWs c)) = c :: t :=
      takeWhile_all _ _ (fun a ha => by rw [hall a ha]; rfl)
    have h2 : (c :: t).dropWhile (fun c => !(isWs c)) = [] := by
      rw [List.dropWhile_eq_nil_iff]
      intro a ha
      rw [hall a ha]
      rfl
    rw [h1, h2]
    simp only [List.takeWhile_nil, List.dropWhile_nil]
    rw [wsGroups_nil]

/-- `retokenize` of a single whitespace-free token yields one implicit
word equal to it. -/
theorem retokenize_single (st : Settings) (lang s : Str) (hne : s ≠ [])
    (hall : ∀ c ∈ s, isWs c = false) :
    retokenize st lang s =
      [.word { text := s, textWithWs := s, implicit := true, lang := lang }] := by
  have hgr := wsGroups_single_token s hne hall
  have hcontent : hasContent s = true := by
    cases s with
    | nil => exact absurd rfl hne
    | cons c t =>
      simp only [hasContent, List.any_cons, Bool.or_eq_true]
      left
      rw [hall c (List.mem_cons_self _ _)]
      rfl
  have hnorm : normalize_whitespace s = s := by
    unfold normalize_whitespace
    rw [hgr]
    simp only [List.filter_cons, List.filter_nil]
    rw [show (decide ((⟨s, []⟩ : WsGroup).part ≠ [])) = true from by
      simpa using hne]
    simp [List.intersperse]
  unfold retokenize
  rw [hgr]
  simp only [List.map_cons, List.map_nil]
  cases hk : st.keepWhitespace with
  | true =>
    simp only [if_true]
    rw [List.append_nil]
    rw [List.filter_cons]
    rw [show hasContent s = true from hcontent]
    simp only [if_true, List.filter_nil, List.map_cons, List.map_nil]
    rw [hnorm]
  | false =>
    simp only [Bool.false_eq_true, if_false]
    rw [List.filter_cons]
    rw [show hasContent s = true from hcontent]
    simp only [if_true, List.filter_nil, List.map_cons, List.map_nil]
    rw [hnorm]

theorem findSome?_first {α β : Type} (f : α → Option β) (pre : List α)
    (p : α) (post : List α) (hpre : ∀ q ∈ pre, f q = none) (e : β)
    (hp : f p = some e) : (pre ++ p :: post).findSome? f = some e := by
  induction pre with
  | nil => simp [List.findSome?_cons, hp]
  | cons a t ih =>
    simp only [List.cons_append, List.findSome?_cons,
      hpre a (List.mem_cons_self _ _)]
    exact ih (fun q hq => hpre q (List.mem_cons_of_mem _ hq))

/-- Abbreviation settings with no major breaks: the raw literal pattern is
compiled as-is and `match()` is only start-anchored. -/
def c6Settings : Settings := { abbreviations := [(S "ab", S "X")] }

/-- **C6, counterexample.**  With no major breaks configured, the raw
pattern `"ab"` is compiled without the `$`-anchored suffix, so on the word
`"abz"` it matches only a prefix — yet the expansion still triggers,
replacing the whole word by the template: the claim that a pattern
triggers only when it matches the whole `text_with_ws` is false. -/
theorem c6_counterexample :
    (S "ab").isPrefixOf (S "abz") = true ∧ S "ab" ≠ S "abz" ∧
    splitAbbreviations c6Settings
        (.word { text := S "abz", textWithWs := S "abz" }) =
      [.word { text := S "X", textWithWs := S "X", implicit := true }] := by
  refine ⟨rfl, by decide, ?_⟩
  have heval : splitAbbreviations c6Settings
      (.word { text := S "abz", textWithWs := S "abz" }) =
      retokenize c6Settings [] (S "X") := rfl
  rw [heval, retokenize_single c6Settings [] (S "X") (by decide) (by decide)]

/-- **C6, amended.**  Patterns are tried in insertion order and the first
match expands; a raw-string pattern that does not end in `$` is, when major
breaks are configured, auto-suffixed with the optional break + whitespace
groups — that compiled form matches only the whole text and re-emits the
captured break and whitespace after the template.  Raw patterns with no
major breaks configured are compiled as-is and trigger on a mere prefix
match (`re.match` is start-anchored only). -/
theorem c6_abbreviations_amended (st : Settings) (w : WordData)
    (hia : w.interpretAs = []) (hne : st.abbreviations ≠ []) :
    (∀ pre p tm post, st.abbreviations = pre ++ (p, tm) :: post →
      (∀ q ∈ pre,
        abbrevMatchExpand (compileAbbrev st.majorBreaks q.1) q.2
          w.textWithWs = none) →
      ∀ e, abbrevMatchExpand (compileAbbrev st.majorBreaks p) tm
          w.textWithWs = some e →
        splitAbbreviations st (.word w) = retokenize st w.lang e) ∧
    (∀ core, st.majorBreaks ≠ [] → core.getLast? ≠ some '$' →
      compileAbbrev st.majorBreaks core = .litBreak core st.majorBreaks) ∧
    (∀ core breaks tm t e,
      abbrevMatchExpand (.litBreak core breaks) tm t = some e →
      core.isPrefixOf t = true ∧ e = tm ++ t.drop core.length ∧
        ∃ br ws, t.drop core.length = br ++ ws ∧
          (br ∈ breaks ∨ br = []) ∧ ws.all isWs = true) := by
  refine ⟨?_, ?_, ?_⟩
  · intro pre p tm post habb hpre e hp
    simp only [splitAbbreviations]
    rw [if_neg (by simp [hia]), if_neg (by simpa using hne)]
    rw [habb]
    rw [findSome?_first _ pre (p, tm) post hpre e hp]
  · intro core hbr hlast
    unfold compileAbbrev
    rw [if_neg hlast, if_pos hbr]
  · intro core breaks tm t e h
    simp only [abbrevMatchExpand] at h
    by_cases hpref : core.isPrefixOf t = true
    · rw [hpref] at h
      simp only [if_true] at h
      refine ⟨hpref, ?_⟩
      cases hf : breaks.find? (fun b =>
          b.isPrefixOf (t.drop core.length) &&
            ((t.drop core.length).drop b.length).all isWs) with
      | some b =>
        rw [hf] at h
        simp only [Option.some.injEq] at h
        have hprop := List.find?_some hf
        simp only [Bool.and_eq_true] at hprop
        obtain ⟨hbp, hbw⟩ := hprop
        have hbmem : b ∈ breaks := List.mem_of_find?_eq_some hf
        refine ⟨by rw [← h], b, (t.drop core.length).drop b.length, ?_,
          Or.inl hbmem, hbw⟩
        obtain ⟨u, hu⟩ := List.isPrefixOf_iff_prefix.mp hbp
        rw [← hu]
        rw [List.drop_left]
      | none =>
        rw [hf] at h
        by_cases hws : (t.drop core.length).all isWs = true
        · rw [if_pos hws] at h
          simp only [Option.some.injEq] at h
          exact ⟨by rw [← h], [], t.drop core.length, by simp, Or.inr rfl, hws⟩
        · rw [if_neg hws] at h
          exact Option.noConfusion h
    · have hf : core.isPrefixOf t = false := Bool.eq_false_iff.mpr hpref
      rw [hf] at h
      simp only [Bool.false_eq_true, if_false] at h
      exact Option.noConfusion h

/-- Settings for the amended-C6 witness: one abbreviation, a major break
set, so the raw pattern gets the auto-suffix. -/
def c6bSettings : Settings :=
  { majorBreaks := [S "."], abbreviations := [(S "Dr", S "Doctor")] }

/-- Witness for the amended C6: `"Dr. "` matches the auto-suffixed
pattern wholly and expands to `"Doctor. "`, the break and whitespace
re-emitted after the template. -/
theorem c6_abbreviations_amended_witness :
    splitAbbreviations c6bSettings
        (.word { text := S "Dr.", textWithWs := S "Dr. " }) =
      retokenize c6bSettings [] (S "Doctor. ") :=
  (c6_abbreviations_amended c6bSettings
    { text := S "Dr.", textWithWs := S "Dr. " } rfl (by decide)).1
    [] (S "Dr") (S "Doctor") [] rfl (by simp) (S "Doctor. ") (by decide)

/-!  ## C8: collaborator exceptions

Collaborators that can raise are modelled in `Except`: `.error` is a Python
exception.  `process_sentence` wraps neither the POS tagger call nor the
phoneme lookups in `try`/`except`, so their errors abort the whole
computation; only `_verbalize_currency` guards its `num2words` call. -/

/-- Python truthiness of `word.phonemes`. -/
def phTruthy : Option (List Str) → Bool
  | some ps => !ps.isEmpty
  | none => false

/-- The POS part of `process_sentence`: one tagger call on the word texts,
tags zipped back onto the words, `role` defaulted to `gruut:<pos>`.  An
exception from the tagger propagates. -/
def processSentencePOS (getPOS : List Str → Except Str (List Str))
    (words : List WordData) : Except Str (List WordData) :=
  match getPOS (words.map (fun w => w.text)) with
  | .error e => .error e
  | .ok tags =>
    .ok ((words.zip tags).map (fun p =>
      let w1 := { p.1 with pos := some p.2 }
      if w1.role = [] then { w1 with role := S "gruut:" ++ p.2 } else w1))

/-- The phonemize loop of `process_sentence` for one word: skip words that
already have phonemes, try `lookup_phonemes`, then `guess_phonemes` when
the lookup produced nothing.  Exceptions propagate. -/
def lookupStep
    (lookup : Option (Str → Str → Except Str (Option (List Str))))
    (w : WordData) : Except Str WordData :=
  match lookup with
  | some f =>
    match f w.text w.role with
    | .error e => .error e
    | .ok ph => .ok { w with phonemes := ph }
  | none => .ok w

def phonemizeWord
    (lookup guess : Option (Str → Str → Except Str (Option (List Str))))
    (w : WordData) : Except Str WordData :=
  if phTruthy w.phonemes then .ok w
  else
    match lookupStep lookup w with
    | .error e => .error e
    | .ok w1 =>
      match guess with
      | some g =>
        if !phTruthy w1.phonemes then
          match g w1.text w1.role with
          | .error e => .error e
          | .ok ph => .ok { w1 with phonemes := ph }
        else .ok w1
      | none => .ok w1

/-- The phonemize loop over a sentence's words, aborted by the first
exception. -/
def phonemizeWords
    (lookup guess : Option (Str → Str → Except Str (Option (List Str)))) :
    List WordData → Except Str (List WordData)
  | [] => .ok []
  | w :: rest =>
    match phonemizeWord lookup guess w with
    | .error e => .error e
    | .ok w' =>
      match phonemizeWords lookup guess rest with
      | .error e => .error e
      | .ok rest' => .ok (w' :: rest')

/-- **C8, counterexample.**  The claim says an exception from any external
collaborator is logged and not propagated; but `process_sentence` has no
handler around the POS tagger call, so a raising tagger aborts
processing. -/
theorem c8_counterexample :
    processSentencePOS (fun _ => .error (S "boom"))
      [{ text := S "a", textWithWs := S "a " }] = .error (S "boom") := rfl

/-- **C8, amended.**  Only the `num2words` call inside
`_verbalize_currency` is guarded: its exception is swallowed (the word gets
no children, keeping the `currency_name` assigned just before the call);
exceptions from the POS tagger and the phoneme lookup/guess callbacks
propagate to the caller of `process()`. -/
theorem c8_collaborator_exceptions_amended (e : Str) (words : List WordData)
    (st : Settings) (w : WordData) (hia : w.interpretAs = S "currency")
    (hsym : w.currencySymbol.isSome) (hnum : w.number.isSome)
    (hnm : w.currencyName = none)
    (w2 : WordData) (hph : phTruthy w2.phonemes = false) :
    processSentencePOS (fun _ => .error e) words = .error e ∧
    phonemizeWords (some (fun _ _ => .error e)) none [w2] = .error e ∧
    (verbalizeCurrency st (fun _ _ => .error e) w).2 = [] ∧
    (verbalizeCurrency st (fun _ _ => .error e) w).1.currencyName.isSome := by
  refine ⟨rfl, ?_, ?_, ?_⟩
  · unfold phonemizeWords phonemizeWord
    rw [hph]
    rfl
  · obtain ⟨q, hq⟩ := Option.isSome_iff_exists.mp hnum
    unfold verbalizeCurrency
    rw [if_neg]
    · rw [hq]
    · push_neg
      refine ⟨by rw [hia], ?_, by rw [hq]; simp⟩
      intro hcs
      exact absurd hcs (by
        intro h
        rw [h] at hsym
        simp at hsym)
  · obtain ⟨q, hq⟩ := Option.isSome_iff_exists.mp hnum
    have hset := verbalizeCurrency_sets_name st (fun _ _ => .error e) w hia
      hsym hnum hnm
    rw [hset.2]
    rfl

/-- Witness for the amended C8 at concrete inputs. -/
theorem c8_collaborator_exceptions_amended_witness :
    processSentencePOS (fun _ => .error (S "x"))
        [{ text := S "a", textWithWs := S "a" }] = .error (S "x") ∧
    phonemizeWords (some (fun _ _ => .error (S "x"))) none
        [{ text := S "a", textWithWs := S "a" }] = .error (S "x") ∧
    (verbalizeCurrency c3Settings (fun _ _ => .error (S "x"))
        { text := S "$1", textWithWs := S "$1",
          interpretAs := S "currency", currencySymbol := some (S "$"),
          number := some 1 }).2 = [] ∧
    (verbalizeCurrency c3Settings (fun _ _ => .error (S "x"))
        { text := S "$1", textWithWs := S "$1",
          interpretAs := S "currency", currencySymbol := some (S "$"),
          number := some 1 }).1.currencyName.isSome :=
  c8_collaborator_exceptions_amended (S "x")
    [{ text := S "a", textWithWs := S "a" }] c3Settings
    { text := S "$1", textWithWs := S "$1", interpretAs := S "currency",
      currencySymbol := some (S "$"), number := some 1 }
    rfl rfl rfl rfl { text := S "a", textWithWs := S "a" } rfl

/-!  ## C9: shape of created words  -/

theorem mem_takeWhile (p : Char → Bool) (l : Str) (a : Char)
    (h : a ∈ l.takeWhile p) : p a = true := by
  induction l with
  | nil => simp [List.takeWhile] at h
  | cons c t ih =>
    rw [List.takeWhile_cons] at h
    by_cases hp : p c = true
    · rw [hp] at h
      simp only [if_true] at h
      rcases List.mem_cons.mp h with rfl | h2
      · exact hp
      · exact ih h2
    · have hpf : p c = false := Bool.eq_false_iff.mpr hp
      rw [hpf] at h
      simp at h

/-- `str.strip()` decomposition: the string is its strip surrounded by
whitespace only. -/
theorem strip_decomp (s : Str) :
    ∃ a b, s = a ++ pyStrip s ++ b ∧ a.all isWs = true ∧ b.all isWs = true := by
  refine ⟨s.takeWhile isWs, ((pyLStrip s).reverse.takeWhile isWs).reverse,
    ?_, ?_, ?_⟩
  · have h1 : pyStrip s ++ ((pyLStrip s).reverse.takeWhile isWs).reverse =
        pyLStrip s := by
      unfold pyStrip pyRStrip
      rw [← List.reverse_append, List.takeWhile_append_dropWhile,
        List.reverse_reverse]
    rw [List.append_assoc, h1]
    unfold pyLStrip
    rw [List.takeWhile_append_dropWhile]
  · rw [List.all_eq_true]
    intro a ha
    exact mem_takeWhile _ _ _ ha
  · rw [List.all_eq_true]
    intro a ha
    rw [List.mem_reverse] at ha
    exact mem_takeWhile _ _ _ ha

theorem mem_mapIdx_ex {α β : Type} (f : Nat → α → β) (l : List α) :
    ∀ x ∈ List.mapIdx f l, ∃ i a, x = f i a := by
  induction l generalizing f with
  | nil =>
    intro x hx
    rw [List.mapIdx_nil] at hx
    simp at hx
  | cons a t ih =>
    intro x hx
    rw [List.mapIdx_cons] at hx
    rcases List.mem_cons.mp hx with rfl | hx2
    · exact ⟨0, a, rfl⟩
    · obtain ⟨i, b, rfl⟩ := ih _ x hx2
      exact ⟨i + 1, b, rfl⟩

/-- Default settings used in the C9 statements. -/
def c9Settings : Settings := {}

/-- **C9, counterexample.**  The spell-out split on a word whose
`text_with_ws` carries leading whitespace (e.g. from
`<say-as interpret-as="spell-out"> ab</say-as>`) creates a first child
with `text_with_ws = " a "` and `text = "a"`: `text_with_ws` does *not*
start with `text`. -/
theorem c9_counterexample :
    (splitSpellOut c9Settings (.word
        { text := S "ab", textWithWs := S " ab",
          interpretAs := S "spell-out" })).head? =
      some (.word
        { text := S "a", textWithWs := S " a ", implicit := true,
          role := roleLetter }) ∧
    (S "a").isPrefixOf (S " a ") = false := by
  constructor
  · decide
  · decide

/-- **C9, amended.**  Every word created by the spell-out split, the
tokenizer or the number verbalizer has `text = text_with_ws.strip()`:
`text_with_ws` is `text` surrounded by whitespace only (possibly on both
sides — it need not *start* with `text`). -/
theorem c9_created_words_amended (st : Settings) (w : WordData) (text : Str) :
    (∀ l ∈ splitSpellOut st (.word w), ∃ w', l = .word w' ∧
      w'.text = pyStrip w'.textWithWs) ∧
    (∀ w' ∈ pipelineTokenize st text, w'.text = pyStrip w'.textWithWs) ∧
    (∀ w' ∈ (verbalizeNumber st w).2, w'.text = pyStrip w'.textWithWs) ∧
    (∀ s : Str, ∃ a b, s = a ++ pyStrip s ++ b ∧
      a.all isWs = true ∧ b.all isWs = true) := by
  refine ⟨?_, ?_, ?_, strip_decomp⟩
  · intro l hl
    simp only [splitSpellOut] at hl
    by_cases hia : w.interpretAs ≠ S "spell-out"
    · rw [if_pos hia] at hl
      simp at hl
    · rw [if_neg hia] at hl
      obtain ⟨o, ho, hid⟩ := List.mem_filterMap.mp hl
      obtain ⟨i, c, hoe⟩ := mem_mapIdx_ex _ _ o ho
      rw [hoe] at hid
      simp only [id_eq] at hid
      rcases hlk : st.spellOutWords.lookup [c] with - | t₀ <;>
        rw [hlk] at hid <;>
        split at hid <;>
        (try split at hid) <;>
        first
        | exact Option.noConfusion hid
        | (rw [Option.some.injEq] at hid
           exact ⟨_, hid.symm, rfl⟩)
  · intro w' hw'
    exact (pipelineTokenize_shape st text w' hw').2.2.1
  · intro w' hw'
    simp only [verbalizeNumber] at hw'
    by_cases hia : w.interpretAs ≠ S "number"
    · rw [if_pos hia] at hw'
      simp at hw'
    · rw [if_neg hia] at hw'
      rcases hnum : w.number with - | q
      · rw [hnum] at hw'
        simp at hw'
      · rw [hnum] at hw'
        simp only [] at hw'
        by_cases hm : st.isMaybeNumber w.text = true
        · rw [hm] at hw'
          simp only [Bool.not_true, Bool.false_eq_true, if_false] at hw'
          obtain ⟨d, -, hmem⟩ := List.mem_flatMap.mp hw'
          obtain ⟨t, -, hww⟩ := List.mem_map.mp hmem
          rw [← hww]
          rfl
        · have hmf : st.isMaybeNumber w.text = false := Bool.eq_false_iff.mpr hm
          rw [hmf] at hw'
          simp at hw'

/-- Witness for the amended C9 at the concrete spell-out child `" a "`. -/
theorem c9_created_words_amended_witness : S "a" = pyStrip (S " a ") := by
  obtain ⟨w', hw, heq⟩ := (c9_created_words_amended c9Settings
    { text := S "ab", textWithWs := S " ab", interpretAs := S "spell-out" }
    (S "x")).1
    (.word { text := S "a", textWithWs := S " a ", implicit := true,
             role := roleLetter }) (by decide)
  have hww : ({ text := S "a", textWithWs := S " a ", implicit := true,
                role := roleLetter } : WordData) = w' := by
    injection hw with h
  rw [← hww] at heq
  exact heq

/-!  ## C7: `<sub>` alias scope in `__call__`

The event-stream consumption of `__call__` (lines 567–802) restricted to
the state the claim concerns.  Stacks grow at the head (the source appends
and pops at the end of a Python list; `[-1]` is the top either way). -/

/-- An event from `text_and_elements`. -/
inductive XEvent where
  | startElem (tag : Str) (attrs : List (Str × Str))
  | textChunk (t : Str)
  | endElem (tag : Str)

/-- The loop state of `__call__`.  `outWords` records the text that each
chunk contributes to the tree (after the `last_alias` substitution). -/
structure CallState where
  voiceStack : List Str := []
  sayAsStack : List (Str × Str) := []
  langStack : List (Str × Str) := []
  currentLang : Str := []
  inWord : Bool := false
  isLastWord : Bool := false
  wordRole : Option Str := none
  lastAlias : Option Str := none
  skipElements : Bool := false
  haveSentence : Bool := false
  haveParagraph : Bool := false
  haveSpeak : Bool := false
  outWords : List Str := []
deriving Repr, DecidableEq

/-- The text-chunk branch: inside `<metadata>` the chunk is skipped;
otherwise, if a `<sub>` alias is set the chunk's text is replaced by the
alias, implicit structure is ensured and the text is tokenized into the
current sentence. -/
def textChunkUpdate (st : CallState) (t : Str) : CallState :=
  if st.skipElements then st
  else
    { st with haveSpeak := true, haveParagraph := true, haveSentence := true,
              outWords := st.outWords ++
                [match st.lastAlias with | some a => a | none => t] }

/-- The end-element branch (lines 638–677), translated clause for clause —
including the source's duplicated `end_tag == "s"` comparison: the second
occurrence (the one meant for `</sub>`, clearing `last_alias`) can never be
reached because the first already matched `"s"`. -/
def endElemUpdate (defaultLang endTag : Str) (st : CallState) : CallState :=
  if endTag = S "voice" then
    { st with voiceStack := st.voiceStack.tail }
  else if endTag = S "say-as" then
    { st with sayAsStack := st.sayAsStack.tail }
  else
    let st1 :=
      if (st.langStack.head?.map Prod.fst) = some endTag then
        { st with langStack := st.langStack.tail }
      else st
    let st2 :=
      { st1 with currentLang :=
          match st1.langStack.head? with
          | some p => p.2
          | none => defaultLang }
    if endTag = S "w" ∨ endTag = S "token" then
      { st2 with inWord := false, isLastWord := false, wordRole := none }
    else if endTag = S "s" then
      { st2 with haveSentence := false }
    else if endTag = S "p" then
      { st2 with haveParagraph := false }
    else if endTag = S "speak" then
      st2
    else if endTag = S "s" then
      -- dead code in the source: same condition as the sentence branch
      { st2 with lastAlias := none }
    else if endTag = S "metadata" then
      { st2 with skipElements := false }
    else st2

/-- The start-element branch, restricted to the state fields above. -/
def startElemUpdate (st : CallState) (tag : Str)
    (attrs : List (Str × Str)) : CallState :=
  if st.skipElements then st
  else if tag = S "speak" then
    let st1 := match attrs.lookup (S "lang") with
      | some l => { st with langStack := (tag, l) :: st.langStack,
                            currentLang := l }
      | none => st
    { st1 with haveSpeak := true }
  else if tag = S "voice" then
    { st with voiceStack := (attrs.lookup (S "name")).getD [] ::
        st.voiceStack }
  else if tag = S "p" then
    let st1 := match attrs.lookup (S "lang") with
      | some l => { st with langStack := (tag, l) :: st.langStack,
                            currentLang := l }
      | none => st
    { st1 with haveSpeak := true, haveParagraph := true }
  else if tag = S "s" then
    let st1 := match attrs.lookup (S "lang") with
      | some l => { st with langStack := (tag, l) :: st.langStack,
                            currentLang := l }
      | none => st
    { st1 with haveSpeak := true, haveParagraph := true,
               haveSentence := true }
  else if tag = S "w" ∨ tag = S "token" then
    let st1 := match attrs.lookup (S "lang") with
      | some l => { st with langStack := (tag, l) :: st.langStack,
                            currentLang := l }
      | none => st
    { st1 with inWord := true, wordRole := attrs.lookup (S "role") }
  else if tag = S "say-as" then
    { st with sayAsStack :=
        ((attrs.lookup (S "interpret-as")).getD [],
         (attrs.lookup (S "format")).getD []) :: st.sayAsStack }
  else if tag = S "sub" then
    { st with lastAlias := some ((attrs.lookup (S "alias")).getD []) }
  else if tag = S "metadata" then
    { st with skipElements := true }
  else st

/-- The event loop of `__call__`. -/
def runEvents (defaultLang : Str) : List XEvent → CallState → CallState
  | [], st => st
  | e :: rest, st =>
    runEvents defaultLang rest
      (match e with
       | .textChunk t => textChunkUpdate st t
       | .endElem tag => endElemUpdate defaultLang tag st
       | .startElem tag attrs => startElemUpdate st tag attrs)

/-- The event stream of
`<speak><sub alias="X">W3C</sub><s>hello</s></speak>`. -/
def c7Events : List XEvent :=
  [.startElem (S "speak") [],
   .startElem (S "sub") [(S "alias", S "X")],
   .textChunk (S "W3C"),
   .endElem (S "sub"),
   .startElem (S "s") [],
   .textChunk (S "hello"),
   .endElem (S "s"),
   .endElem (S "speak")]

/-- **C7 (code bug).**  The end-element dispatch never clears
`last_alias` — the `</sub>` clause is shadowed by the earlier, identical
`end_tag == "s"` comparison — so after `<sub alias="X">W3C</sub>` every
later text chunk of the document is also replaced by the alias: the
document above produces the word texts `["X", "X"]` where the claim (and
the spec, which flags this very branch as a bug to not inherit) requires
`["X", "hello"]`. -/
theorem c7_sub_alias_code_bug :
    (∀ lang tag st, (endElemUpdate lang tag st).lastAlias = st.lastAlias) ∧
    (runEvents (S "en_US") c7Events {}).outWords = [S "X", S "X"] := by
  constructor
  · intro lang tag st
    unfold endElemUpdate
    split_ifs <;> rfl
  · decide

/-!  ## C10: escaping and `<speak>` wrapping in `__call__`  -/

/-- `xml.sax.saxutils.escape`: replace `&`, `<`, `>` by their entities
(the sequential `str.replace` calls of the library are equivalent to this
character map, as the replacement texts contain no further specials). -/
def escChar (c : Char) : Str :=
  if c = '&' then S "&amp;"
  else if c = '<' then S "&lt;"
  else if c = '>' then S "&gt;"
  else [c]

def escape (s : Str) : Str := s.flatMap escChar

/-- The prelude of `__call__` (lines 507–513): escape when not SSML, then
wrap in `<speak>…</speak>` unless the (escaped) text already starts with
`<` after `lstrip`. -/
def callPrelude (ssml addSpeakTag : Bool) (text : Str) : Str :=
  let t1 := if !ssml then escape text else text
  if addSpeakTag ∧ ¬((pyLStrip t1).head? = some '<') then
    S "<speak>" ++ t1 ++ S "</speak>"
  else t1

/-- Characters permitted by XML 1.0 (what `etree.fromstring`'s expat
parser accepts as character data; all others raise `ParseError`).
Modelled from the spec: the XML parsing itself
(`xml.etree.ElementTree.fromstring`) is standard-library code outside the
repository. -/
def validXmlChar (c : Char) : Bool :=
  c = '\t' || c = '\n' || c = '\r' ||
    (0x20 ≤ c.toNat && c.toNat ≤ 0xD7FF) ||
    (0xE000 ≤ c.toNat && c.toNat ≤ 0xFFFD) ||
    (0x10000 ≤ c.toNat)

/-- Every `&` starts one of the three entities `escape` can produce. -/
def entitiesOk : Str → Bool
  | [] => true
  | '&' :: rest =>
    if (S "amp;").isPrefixOf rest || (S "lt;").isPrefixOf rest ||
        (S "gt;").isPrefixOf rest then
      entitiesOk rest
    else false
  | _ :: rest => entitiesOk rest

/-- Modelled from the spec: `etree.fromstring` succeeds on a document of
the shape `<speak>` body `</speak>` exactly when the body is plain
character data — no markup (`<`), ampersands only as recognized entities,
and only XML-valid characters. -/
def parsesAsSpeakWrap (t : Str) : Bool :=
  (S "<speak>").isPrefixOf t && (S "</speak>").isSuffixOf t &&
    (let body := (t.drop 7).take ((t.drop 7).length - 8)
     body.all (fun c => c ≠ '<') && entitiesOk body &&
       body.all validXmlChar)

/-- **C10, counterexample.**  A NUL character survives `saxutils.escape`
untouched, and `<speak>\x00</speak>` is not well-formed XML
(`etree.fromstring` raises `ParseError`), so `process()` with
`ssml=false, add_speak_tag=true` *can* raise the malformed-XML error. -/
theorem c10_counterexample :
    validXmlChar '\x00' = false ∧
    callPrelude false true (S "\x00") = S "<speak>\x00</speak>" ∧
    parsesAsSpeakWrap (callPrelude false true (S "\x00")) = false := by
  refine ⟨rfl, by decide, by decide⟩

theorem escape_no_lt (s : Str) : ∀ c ∈ escape s, c ≠ '<' := by
  intro c hc
  obtain ⟨a, -, hca⟩ := List.mem_flatMap.mp hc
  unfold escChar at hca
  split_ifs at hca with h1 h2 h3
  · fin_cases hca <;> decide
  · fin_cases hca <;> decide
  · fin_cases hca <;> decide
  · rw [List.mem_singleton] at hca
    subst hca
    exact h2

theorem escape_entitiesOk (s : Str) : entitiesOk (escape s) = true := by
  induction s with
  | nil => rfl
  | cons c t ih =>
    show entitiesOk (escChar c ++ escape t) = true
    unfold escChar
    split_ifs with h1 h2 h3
    · subst h1
      simpa [entitiesOk, S, List.isPrefixOf] using ih
    · subst h2
      simpa [entitiesOk, S, List.isPrefixOf] using ih
    · subst h3
      simpa [entitiesOk, S, List.isPrefixOf] using ih
    · show entitiesOk (c :: escape t) = true
      unfold entitiesOk
      split
      · rfl
      · rename_i heq
        injection heq with hc _
        exact absurd hc h1
      · rename_i heq
        injection heq with _ hr
        rw [hr] at ih
        exact ih

theorem escape_valid (text : Str) (h : ∀ c ∈ text, validXmlChar c = true) :
    ∀ c ∈ escape text, validXmlChar c = true := by
  intro c hc
  obtain ⟨a, ha, hca⟩ := List.mem_flatMap.mp hc
  unfold escChar at hca
  split_ifs at hca with h1 h2 h3
  · fin_cases hca <;> decide
  · fin_cases hca <;> decide
  · fin_cases hca <;> decide
  · rw [List.mem_singleton] at hca
    subst hca
    exact h _ ha

theorem parsesAsSpeakWrap_wrap (e : Str)
    (h1 : e.all (fun c => c ≠ '<') = true)
    (h2 : entitiesOk e = true)
    (h3 : e.all validXmlChar = true) :
    parsesAsSpeakWrap (S "<speak>" ++ e ++ S "</speak>") = true := by
  unfold parsesAsSpeakWrap
  rw [List.append_assoc]
  have h7 : (7 : Nat) = (S "<speak>").length := by decide
  have hdrop : (S "<speak>" ++ (e ++ S "</speak>")).drop 7 = e ++ S "</speak>" := by
    rw [h7, List.drop_left]
  rw [hdrop]
  have hlen : (e ++ S "</speak>").length - 8 = e.length := by
    rw [List.length_append]
    simp [S]
  rw [hlen, List.take_left]
  simp only [Bool.and_eq_true]
  refine ⟨⟨?_, ?_⟩, ⟨h1, h2⟩, h3⟩
  · rw [List.isPrefixOf_iff_prefix]
    exact List.prefix_append _ _
  · rw [List.isSuffixOf_iff_suffix, ← List.append_assoc]
    exact List.suffix_append _ _

/-- Claim C10 (amended).  When `ssml=False` and `add_speak_tag=True`, for
every input whose characters are all XML-valid, `process()` does not
raise the malformed-XML (`InputFormat`) error: `saxutils.escape` output
contains no `<`, so the escaped text is always wrapped in
`<speak>…</speak>`, and the wrapped document is well-formed XML.  (The
original "for every input string" fails: control characters such as NUL
pass through `escape` untouched and make the document ill-formed.) -/
theorem c10_no_xml_error_amended (text : Str)
    (h : text.all validXmlChar = true) :
    (escape text).all (fun c => c ≠ '<') = true ∧
    callPrelude false true text = S "<speak>" ++ escape text ++ S "</speak>" ∧
    parsesAsSpeakWrap (callPrelude false true text) = true := by
  have hv : ∀ c ∈ text, validXmlChar c = true := by
    intro c hc
    exact List.all_eq_true.mp h c hc
  have hlt : (escape text).all (fun c => c ≠ '<') = true := by
    rw [List.all_eq_true]
    intro c hc
    exact decide_eq_true (escape_no_lt text c hc)
  have hval : (escape text).all validXmlChar = true := by
    rw [List.all_eq_true]
    intro c hc
    exact escape_valid text hv c hc
  have hhead : ¬((pyLStrip (escape text)).head? = some '<') := by
    intro hcontra
    rcases hdw : pyLStrip (escape text) with _ | ⟨a, l⟩
    · rw [hdw] at hcontra
      exact Option.noConfusion hcontra
    · rw [hdw] at hcontra
      have ha : a = '<' := Option.some.inj hcontra
      have hsub : List.Sublist (pyLStrip (escape text)) (escape text) := by
        unfold pyLStrip
        apply List.dropWhile_sublist
      have hmem : a ∈ escape text := by
        apply hsub.mem
        rw [hdw]
        exact List.mem_cons_self a l
      exact escape_no_lt text a hmem ha
  have hwrap : callPrelude false true text =
      S "<speak>" ++ escape text ++ S "</speak>" := by
    show (if (true = true) ∧ ¬((pyLStrip (escape text)).head? = some '<') then
        S "<speak>" ++ escape text ++ S "</speak>" else escape text) =
      S "<speak>" ++ escape text ++ S "</speak>"
    exact if_pos ⟨rfl, hhead⟩
  refine ⟨hlt, hwrap, ?_⟩
  rw [hwrap]
  exact parsesAsSpeakWrap_wrap (escape text) hlt (escape_entitiesOk text) hval

/-- Witness for the amended C10 at the concrete input `a & b`. -/
theorem c10_no_xml_error_amended_witness :
    (S "a & b").all validXmlChar = true ∧
    ((escape (S "a & b")).all (fun c => c ≠ '<') = true ∧
      callPrelude false true (S "a & b") =
        S "<speak>" ++ escape (S "a & b") ++ S "</speak>" ∧
      parsesAsSpeakWrap (callPrelude false true (S "a & b")) = true) :=
  ⟨by decide, c10_no_xml_error_amended (S "a & b") (by decide)⟩

end Gruut
